import Mathlib

/-!
Verification of the metadata-driven SQL/schema compiler core
(QueryBuilderHelper, SchemaGenerator, MetadataDiscovery) against its
natural-language specification.  Source files are shallowly embedded as
executable Lean definitions; external collaborators (the knex query
builder, the platform capability object, the naming strategy and the
commit-order calculator of the core package) are modelled where noted.
-/

namespace MikroOrm

/-! ## Basic data model shared by the subsystems -/

/-- Relation kinds of an entity property (enum ReferenceType in the core). -/
inductive ReferenceType where
  | scalar
  | manyToOne
  | oneToOne
  | oneToMany
  | manyToMany
  | embedded
deriving DecidableEq, Repr

/-! ## String helpers

The JS code manipulates regex sources with chained global `String.replace`
calls.  We model strings as `List Char` for these definitions;
`jsReplaceAll pat rep s` is the semantics of `s.replace(/pat/g, rep)` for a
constant pattern: left-to-right, non-overlapping replacement. -/

/-- Replace every (non-overlapping, leftmost-first) occurrence of `pat` by
`rep`; structural recursion on a fuel that bounds the input length (each step
consumes at least one input character, so `s.length` fuel is always enough). -/
def jsReplaceAllAux (pat rep : List Char) : Nat → List Char → List Char
  | 0, l => l
  | _ + 1, [] => []
  | fuel + 1, c :: rest =>
    if pat ≠ [] ∧ pat.isPrefixOf (c :: rest) then
      rep ++ jsReplaceAllAux pat rep fuel ((c :: rest).drop pat.length)
    else
      c :: jsReplaceAllAux pat rep fuel rest

/-- Semantics of `s.replace(/pat/g, rep)` for a constant pattern. -/
def jsReplaceAll (pat rep s : List Char) : List Char :=
  jsReplaceAllAux pat rep s.length s

/-- Semantics of `value.replace(/^\^/g, '')`: the anchored pattern matches at
most once, at the start. -/
def stripLeadCaret : List Char → List Char
  | '^' :: rest => rest
  | l => l

/-- Semantics of `value.replace(/\$$/g, '')`: the anchored pattern matches at
most once, at the end. -/
def stripTrailDollar (l : List Char) : List Char :=
  if l.getLast? = some '$' then l.dropLast else l

/-! ## QueryBuilderHelper: regex to LIKE rewrite
Embeds QueryBuilderHelper.isSimpleRegExp and QueryBuilderHelper.getRegExpParam
(src/packages/knex/src/query/QueryBuilderHelper.ts). -/

/-- QueryBuilderHelper.isSimpleRegExp on the source of a RegExp: the regex is
considered complex as soon as the source matches /[{[(]/. -/
def isSimpleRegExpSource (source : List Char) : Bool :=
  !(source.any fun c => c = '{' || c = '[' || c = '(')

/-- QueryBuilderHelper.getRegExpParam: rewrites a simple regex source into a
LIKE pattern. -/
def getRegExpParam (source : List Char) : List Char :=
  let value := jsReplaceAll ['.', '*'] ['%'] source
  let value := jsReplaceAll ['.'] ['_'] value
  let value := jsReplaceAll ['\\', '_'] ['.'] value
  let value := stripLeadCaret value
  let value := stripTrailDollar value
  if source.head? = some '^' ∧ source.getLast? = some '$' then
    value
  else if source.head? = some '^' then
    value ++ ['%']
  else if source.getLast? = some '$' then
    '%' :: value
  else
    '%' :: (value ++ ['%'])

/-! ## QueryBuilderHelper: condition compilation

Shallow embedding of the query-condition compiler of
src/packages/knex/src/query/QueryBuilderHelper.ts.  Declarative condition
values are the JSON-like `CVal`; the knex query builder (an external
collaborator) is modelled by `KnexQB`, a list of clauses each carrying the
connective (`and` for where/andWhere/having, `or` for orWhere) with which the
corresponding knex method appends it; a callback-style grouped where
(`qb.where(inner => ...)`, rendered parenthesized by knex) is a
`WClause.group` node. -/

/-- A declarative condition value (the JSON-ish values the query compiler
receives), including RegExp literals and knex raw fragments. -/
inductive CVal where
  | int (n : Int)
  | str (s : String)
  | null
  | undef
  | regex (source : String)
  | rawSql (sql : String) (bindings : List CVal)
  | obj (kvs : List (String × CVal))
  | arr (vs : List CVal)

/-- QueryType of src/packages/knex/src/query/enums. -/
inductive QueryType where
  | select | count | insert | update | delete | truncate
deriving DecidableEq

/-- The slice of EntityProperty that the query-side helper reads. -/
structure QProp where
  name : String
  fieldNames : List String := []
  fieldNameRaw : Option String := none
  persist : Bool := true
  joinColumns : Option (List String) := none
  customType : Bool := false

/-- The slice of EntityMetadata that the query-side helper reads. -/
structure QMeta where
  name : String
  tableName : String
  properties : List QProp := []
  versionProperty : Option String := none
  primaryKeys : List String := []

/-- The constructor state of QueryBuilderHelper plus the platform capability
functions it consults (regex operator, full-text template, VALUES-keyword
flag, identifier quoting and JSON serialization are external collaborators
and enter the model as data/function fields). -/
structure QBHCtx where
  entityName : String
  aliasName : String
  aliasMap : List (String × String) := []
  subQueries : List (String × String) := []
  metadata : List QMeta := []
  regexpOperator : String := "regexp"
  fullTextWhereClause : String := ":column: @@ :query"
  requiresValuesKeyword : Bool := false
  quoteIdent : String → String := fun s => s
  jsonStringify : CVal → String := fun _ => ""
  usesDefaultKeyword : Bool := true

def findEntityMeta (ctx : QBHCtx) (name : String) : Option QMeta :=
  ctx.metadata.find? (fun m => m.name == name)

/-- QueryBuilderHelper.getProperty. -/
def getProperty (ctx : QBHCtx) (field : String) (al : String) : Option QProp :=
  let entityName := ((ctx.aliasMap.lookup al).getD ctx.entityName)
  (findEntityMeta ctx entityName).bind fun m =>
    m.properties.find? (fun p => p.name == field)

/-- QueryBuilderHelper.isCustomExpression: the field matches /[ ?<>=()]|^\d/. -/
def isCustomExpression (field : String) : Bool :=
  (field.data.any fun c =>
    c == ' ' || c == '?' || c == '<' || c == '>' || c == '=' || c == '(' || c == ')') ||
  (match field.data.head? with
   | some c => c.isDigit
   | none => false)

/-- A character of the class [\w`"[\]] used by QueryBuilderHelper.isPrefixed
(backtick and double quote written via their character codes). -/
def isWordChar (c : Char) : Bool :=
  c.isAlphanum || c == '_' || c == Char.ofNat 96 || c == Char.ofNat 34 ||
  c == '[' || c == ']'

/-- The field matches /[\w`"[\]]+\./, i.e. some word-like character is
immediately followed by a dot. -/
def hasWordDot : List Char → Bool
  | a :: b :: rest => (isWordChar a && b == '.') || hasWordDot (b :: rest)
  | _ => false

/-- QueryBuilderHelper.isPrefixed. -/
def isPrefixedField (field : String) : Bool :=
  hasWordDot field.data

/-- Semantics of `s.split(sep)` for a single-character separator. -/
def splitOnCharAux (sep : Char) : List Char → List Char → List String
  | [], acc => [⟨acc.reverse⟩]
  | c :: rest, acc =>
    if c = sep then ⟨acc.reverse⟩ :: splitOnCharAux sep rest []
    else splitOnCharAux sep rest (c :: acc)

def splitOnChar (sep : Char) (s : String) : List String :=
  splitOnCharAux sep s.data []

/-- Modelled from the spec: Utils.splitPrimaryKeys of the core package is not
under src; the spec says multi-part (composite) key fields expand to a column
tuple, so we model a multi-part key field as a comma-separated list of field
names. -/
def splitPrimaryKeys (field : String) : List String :=
  splitOnChar ',' field

/-- QueryBuilderHelper.fieldName. -/
def fieldNameOf (ctx : QBHCtx) (field : String) (al : String) : String :=
  match getProperty ctx field al with
  | none => field
  | some p =>
    match p.fieldNameRaw with
    | some raw => raw
    | none => p.fieldNames.headD field

/-- QueryBuilderHelper.prefix (named prefixField here). -/
def prefixField (ctx : QBHCtx) (field : String) (always : Bool := false) : String :=
  if !(isPrefixedField field) then
    (if always then ctx.quoteIdent ctx.aliasName ++ "." else "") ++ fieldNameOf ctx field ctx.aliasName
  else
    match splitOnChar '.' field with
    | a :: f :: _ => a ++ "." ++ fieldNameOf ctx f a
    | _ => field

/-- Result of QueryBuilderHelper.mapper: either a plain column string or a
knex raw fragment with bindings. -/
inductive MappedField where
  | plain (s : String)
  | raw (sql : String) (bindings : List CVal)

def MappedField.refName : MappedField → String
  | .plain s => s
  | .raw s _ => s

/-- QueryBuilderHelper.mapper for a single (non-composite) field. -/
def mapperSingle (ctx : QBHCtx) (field : String) (type : QueryType)
    (value : Option CVal) (aliasArg : Option String) : MappedField :=
  let customExpression := isCustomExpression field
  let prop := getProperty ctx field ctx.aliasName
  let noPrefix := match prop with
    | some p => !p.persist
    | none => false
  if (prop.bind (fun p => p.fieldNameRaw)).isSome then
    .raw (prefixField ctx field true) []
  else
    let ret := if !customExpression then prefixField ctx field else field
    let ret := match aliasArg with
      | some a => ret ++ " as " ++ a
      | none => ret
    if customExpression then
      .raw ret (match value with | some v => [v] | none => [])
    else if (type != .select && type != .count) || isPrefixedField ret || noPrefix then
      .plain ret
    else
      .plain (ctx.aliasName ++ "." ++ ret)

/-- QueryBuilderHelper.mapper.  Composite (multi-part) fields become a raw
parenthesized tuple of the individually mapped parts; the source achieves
this by a self-call on each part, which contains no separator, so the parts
are mapped by the single-field body. -/
def mapper (ctx : QBHCtx) (field : String) (type : QueryType := .select)
    (value : Option CVal := none) (aliasArg : Option String := none) : MappedField :=
  let fields := splitPrimaryKeys field
  if fields.length > 1 then
    .raw ("(" ++ ", ".intercalate
      (fields.map fun f => (mapperSingle ctx f type value aliasArg).refName) ++ ")") []
  else
    mapperSingle ctx field type value aliasArg

/-- The OPERATORS table at the top of QueryBuilderHelper. -/
def OPERATORS : List (String × String) :=
  [("$eq", "="), ("$in", "in"), ("$nin", "not in"), ("$gt", ">"), ("$gte", ">="),
   ("$lt", "<"), ("$lte", "<="), ("$ne", "!="), ("$not", "not"), ("$like", "like"),
   ("$fulltext", "fulltext"), ("$re", "regexp")]

/-- Modelled from the spec: Utils.isOperator of the core package is not under
src; per the spec the operator keys are the group operators and the query
operators. -/
def isOperatorKey (k : String) : Bool :=
  k == "$and" || k == "$or" || (OPERATORS.lookup k).isSome

def objEntries : CVal → List (String × CVal)
  | .obj kvs => kvs
  | _ => []

/-- Utils.getObjectKeysSize: number of own keys (0 for non-plain values). -/
def keysSize (v : CVal) : Nat :=
  (objEntries v).length

def objLookup (v : CVal) (k : String) : Option CVal :=
  (objEntries v).lookup k

def hasKey (v : CVal) (k : String) : Bool :=
  (objLookup v k).isSome

/-- Utils.isPlainObject. -/
def isPlainObjectV : CVal → Bool
  | .obj _ => true
  | _ => false

/-- Connective with which a clause is appended: where/andWhere/having carry
`and`, orWhere carries `or`. -/
inductive Conn where
  | and | or
deriving DecidableEq

/-- The clause-bucket methods 'where' and 'having' that the compiler threads
through (both append with the `and` connective; the model keeps a single
clause list since the embedded claims exercise only one bucket). -/
inductive WMethod where
  | whereM | havingM
deriving DecidableEq

/-- A clause recorded in the modelled knex builder. -/
inductive WClause where
  | leaf (column : MappedField) (op : String) (value : CVal)
  | leafSingle (column : MappedField)
  | leafParams (column : MappedField) (params : List CVal)
  | fulltext (template : String) (table : String) (column : String) (query : CVal)
  | group (negated : Bool) (sub : List (Conn × WClause))

abbrev KnexQB := List (Conn × WClause)

inductive QueryError where
  | invalidCondition
  | missingMetadata
  | outOfFuel
deriving DecidableEq

/-- QueryBuilderHelper.getOperatorReplacement. -/
def getOperatorReplacement (ctx : QBHCtx) (op : String) (value : CVal) : String :=
  let replacement := (OPERATORS.lookup op).getD ""
  let isNullVal := match objLookup value op with
    | some .null => true
    | _ => false
  let replacement :=
    if isNullVal && (op == "$eq" || op == "$ne") then
      (if op == "$eq" then "is" else "is not")
    else replacement
  if op == "$re" then ctx.regexpOperator else replacement

/-- Utils.asArray. -/
def asArray : CVal → List CVal
  | .arr vs => vs
  | v => [v]

/-- Utils.isObject (any non-null object value, JSON.stringify applied by the
caller through the context). -/
def isObjectV : CVal → Bool
  | .obj _ => true
  | .arr _ => true
  | _ => false

/-- QueryBuilderHelper.processCustomExpression. -/
def processCustomExpression (ctx : QBHCtx) (m : Conn) (key : String)
    (cond : List (String × CVal)) (type : QueryType) (qb : KnexQB) : KnexQB :=
  let count := key.data.count '?'
  let value := asArray ((cond.lookup key).getD .null)
  let params1 := (value.take count).map fun c =>
    if isObjectV c then CVal.str (ctx.jsonStringify c) else c
  let params2 := value.drop count
  let k := mapper ctx key type (some (.arr params1)) none
  if params2.length > 0 then
    qb ++ [(m, .leafParams k params2)]
  else
    qb ++ [(m, .leafSingle k)]

/-- Interprets a `$and`/`$or` payload as a list of sub-conditions. -/
def asConditionList : CVal → List (List (String × CVal))
  | .arr vs => vs.map objEntries
  | _ => []

/-- Argument descriptor for the four mutually recursive condition-compiling
methods; they are compiled as one fuel-indexed structurally recursive
function so that concrete runs reduce definitionally. -/
inductive QCCall where
  | queryCondition (ctx : QBHCtx) (type : QueryType) (cond : List (String × CVal))
      (method : WMethod) (operator : Option Conn) (qb : KnexQB)
  | querySubCondition (ctx : QBHCtx) (type : QueryType) (method : WMethod)
      (cond : List (String × CVal)) (key : String) (operator : Option Conn) (qb : KnexQB)
  | objectSubCondition (ctx : QBHCtx) (cond : List (String × CVal)) (key : String)
      (type : QueryType) (method : WMethod) (m : Conn) (qb : KnexQB)
  | groupCondition (ctx : QBHCtx) (type : QueryType) (operator : Conn) (method : WMethod)
      (subCondition : List (List (String × CVal))) (qb : KnexQB)

/-- The bodies of QueryBuilderHelper.appendQueryCondition,
appendQuerySubCondition, processObjectSubCondition and appendGroupCondition.
The fuel argument bounds recursion depth (the JS recursion is unbounded);
every recursive call consumes one unit. -/
def qcRun : Nat → QCCall → Except QueryError KnexQB
  | 0, _ => throw .outOfFuel
  | fuel + 1, call =>
    match call with
    | .queryCondition ctx type cond method operator qb =>
      cond.foldlM (fun qb kv =>
        let k := kv.1
        if k == "$and" || k == "$or" then
          let groupOp : Conn := if k == "$or" then .or else .and
          let subs := asConditionList kv.2
          match operator with
          | some op =>
            let m : Conn := if op == .or then .or else .and
            do
              let inner ← qcRun fuel (.groupCondition ctx type groupOp method subs [])
              pure (qb ++ [(m, WClause.group false inner)])
          | none => qcRun fuel (.groupCondition ctx type groupOp method subs qb)
        else if k == "$not" then
          let m : Conn := if operator == some .or then .or else .and
          do
            let inner ← qcRun fuel (.queryCondition ctx type (objEntries kv.2) .whereM none [])
            pure (qb ++ [(m, WClause.group true inner)])
        else
          qcRun fuel (.querySubCondition ctx type method cond k operator qb)) qb
    | .querySubCondition ctx type method cond key operator qb =>
      let m : Conn := if operator == some .or then .or else .and
      let v := (cond.lookup key).getD .null
      match v with
      | .regex src =>
        if isSimpleRegExpSource src.data then
          pure (qb ++ [(m, .leaf (mapper ctx key type) "like"
            (.str ⟨getRegExpParam src.data⟩))])
        else
          qcRun fuel (.objectSubCondition ctx cond key type method m qb)
      | .obj _ => qcRun fuel (.objectSubCondition ctx cond key type method m qb)
      | _ =>
        if isCustomExpression key then
          pure (processCustomExpression ctx m key cond type qb)
        else
          let op := match v with
            | .null => "is"
            | _ => "="
          match ctx.subQueries.lookup key with
          | some sub => pure (qb ++ [(m, .leaf (.raw ("(" ++ sub ++ ")") []) op v)])
          | none => pure (qb ++ [(m, .leaf (mapper ctx key type (some v)) op v)])
    | .objectSubCondition ctx cond key type method m qb =>
      let value := (cond.lookup key).getD .null
      if keysSize value > 1 then
        (objEntries value).foldlM (fun qb e =>
          qcRun fuel (.queryCondition ctx type [(key, CVal.obj [e])] method (some .and) qb)) qb
      else
        let value := match value with
          | .regex src => CVal.obj [("$re", .str src)]
          | v => v
        match OPERATORS.find? (fun p => hasKey value p.1) with
        | none => throw .invalidCondition
        | some (op, _) =>
          let replacement := getOperatorReplacement ctx op value
          let fields := splitPrimaryKeys key
          let rawVal := (objLookup value op).getD .null
          let isNonNestedArr := match rawVal with
            | .arr vs => !(vs.all fun v => match v with | .arr _ => true | _ => false)
            | _ => false
          let rawVal :=
            if fields.length > 1 && isNonNestedArr then
              CVal.rawSql ((if ctx.requiresValuesKeyword then "values " else "") ++
                "(" ++ ", ".intercalate (fields.map fun _ => "?") ++ ")") (asArray rawVal)
            else rawVal
          match ctx.subQueries.lookup key with
          | some sub => pure (qb ++ [(m, .leaf (.raw ("(" ++ sub ++ ")") []) replacement rawVal)])
          | none =>
            if op == "$fulltext" then
              match findEntityMeta ctx ctx.entityName with
              | none => throw .missingMetadata
              | some meta =>
                pure (qb ++ [(m, .fulltext ctx.fullTextWhereClause meta.tableName key rawVal)])
            else
              pure (qb ++ [(m, .leaf (mapper ctx key type) replacement rawVal)])
    | .groupCondition ctx type operator method subCondition qb =>
      if subCondition.length == 1 || operator == .and then
        subCondition.foldlM (fun qb sub =>
          qcRun fuel (.queryCondition ctx type sub method none qb)) qb
      else do
        let outer ← subCondition.foldlM (fun outer sub => do
          let keys := sub.map Prod.fst
          let val := (sub.head?.map Prod.snd).getD .null
          let simple := !(isPlainObjectV val) || keysSize val == 1 ||
            ((objEntries val).map Prod.fst).all (fun k => !(isOperatorKey k))
          if keys.length == 1 && simple then
            qcRun fuel (.queryCondition ctx type sub .whereM (some operator) outer)
          else do
            let inner ← qcRun fuel (.queryCondition ctx type sub .whereM none [])
            pure (outer ++ [(Conn.or, WClause.group false inner)])) []
        pure (qb ++ [(Conn.and, WClause.group false outer)])

/-- QueryBuilderHelper.appendQueryCondition. -/
def appendQueryCondition (fuel : Nat) (ctx : QBHCtx) (type : QueryType)
    (cond : List (String × CVal)) (method : WMethod) (operator : Option Conn)
    (qb : KnexQB) : Except QueryError KnexQB :=
  qcRun fuel (.queryCondition ctx type cond method operator qb)

/-- QueryBuilderHelper.appendQuerySubCondition. -/
def appendQuerySubCondition (fuel : Nat) (ctx : QBHCtx) (type : QueryType)
    (method : WMethod) (cond : List (String × CVal)) (key : String)
    (operator : Option Conn) (qb : KnexQB) : Except QueryError KnexQB :=
  qcRun fuel (.querySubCondition ctx type method cond key operator qb)

/-- QueryBuilderHelper.processObjectSubCondition. -/
def processObjectSubCondition (fuel : Nat) (ctx : QBHCtx)
    (cond : List (String × CVal)) (key : String) (type : QueryType)
    (method : WMethod) (m : Conn) (qb : KnexQB) : Except QueryError KnexQB :=
  qcRun fuel (.objectSubCondition ctx cond key type method m qb)

/-- QueryBuilderHelper.appendGroupCondition. -/
def appendGroupCondition (fuel : Nat) (ctx : QBHCtx) (type : QueryType)
    (operator : Conn) (method : WMethod) (subCondition : List (List (String × CVal)))
    (qb : KnexQB) : Except QueryError KnexQB :=
  qcRun fuel (.groupCondition ctx type operator method subCondition qb)

/-- True when some clause of the builder is a callback-style group (which knex
renders wrapped in parentheses). -/
def containsGroup (qb : KnexQB) : Bool :=
  qb.any fun p =>
    match p.2 with
    | .group _ _ => true
    | _ => false

/-! ## QueryBuilderHelper.getLockSQL -/

/-- LockMode of the core package. -/
inductive LockMode where
  | noLock | optimistic | pessimisticRead | pessimisticWrite
deriving DecidableEq

/-- The locking clause the builder is asked to apply. -/
inductive LockAction where
  | forShare | forUpdate
deriving DecidableEq

/-- OptimisticLockError.lockFailed (the ConfigurationError of the spec's
error taxonomy). -/
inductive LockError where
  | optimisticLockFailed (entityName : String)
deriving DecidableEq

/-- QueryBuilderHelper.getLockSQL: pessimistic modes return the platform
locking clause immediately; an optimistic lock on found metadata without a
version property throws before any SQL is produced. -/
def getLockSQL (ctx : QBHCtx) (lockMode : Option LockMode) : Except LockError (Option LockAction) :=
  match lockMode with
  | some .pessimisticRead => .ok (some .forShare)
  | some .pessimisticWrite => .ok (some .forUpdate)
  | _ =>
    match findEntityMeta ctx ctx.entityName with
    | some meta =>
      if lockMode = some .optimistic ∧ meta.versionProperty = none then
        .error (.optimisticLockFailed ctx.entityName)
      else
        .ok none
    | none => .ok none

/-! ## QueryBuilderHelper.processData

The frame claim about processData is about JS object identity, so the model
makes the heap explicit: a heap is a list of JS dictionaries and a reference
is an index into it.  `Object.assign(\x7b\x7d, data)` allocates a fresh
object; all subsequent mutations of the source method act on that copy. -/

abbrev JObj := List (String × CVal)

abbrev JHeap := List JObj

/-- JS assignment `obj[k] = v`: overwrite in place or append a new key. -/
def objSet (d : JObj) (k : String) (v : CVal) : JObj :=
  if (d.lookup k).isSome then
    d.map fun kv => if kv.1 == k then (k, v) else kv
  else
    d ++ [(k, v)]

/-- JS `delete obj[k]`. -/
def objDelete (d : JObj) (k : String) : JObj :=
  d.filter fun kv => kv.1 != k

/-- Models Utils.renameKey of the core package (not under src): delete the
old key and assign its value to the new key, as the JS delete+assign does
(no-op when the key is missing or unchanged). -/
def renameKey (d : JObj) (src dst : String) : JObj :=
  if src ≠ dst then
    match d.lookup src with
    | some v => objSet (objDelete d src) dst v
    | none => d
  else d

/-- The per-key body of QueryBuilderHelper.processData, acting on the copied
dictionary. -/
def processDataKey (ctx : QBHCtx) (meta : QMeta) (d : JObj) (k : String) : JObj :=
  match meta.properties.find? (fun p => p.name == k) with
  | none => d
  | some prop =>
    match prop.joinColumns, d.lookup k with
    | some joinCols, some (.arr copy) =>
      let d := objDelete d k
      joinCols.enum.foldl (fun d p => objSet d p.2 (copy.getD p.1 .undef)) d
    | _, _ =>
      let d :=
        if !prop.customType &&
            (match d.lookup k with
             | some (.arr _) => true
             | some (.obj _) => true
             | _ => false) then
          objSet d k (.str (ctx.jsonStringify ((d.lookup k).getD .null)))
        else d
      match prop.fieldNames with
      | f :: _ => renameKey d k f
      | [] => d

/-- The body of QueryBuilderHelper.processData for a dictionary input,
applied to the copy: iterate the snapshot of keys, then insert the default
primary-key entry when a multi-insert row became empty. -/
def processDataBody (ctx : QBHCtx) (multi : Bool) (d : JObj) : JObj :=
  match findEntityMeta ctx ctx.entityName with
  | none => d
  | some meta =>
    let d := (d.map Prod.fst).foldl (processDataKey ctx meta) d
    if d.isEmpty && multi then
      objSet d (meta.primaryKeys.headD "") (if ctx.usesDefaultKeyword then .rawSql "default" [] else .undef)
    else d

/-- QueryBuilderHelper.processData on a dictionary reference: copy first
(fresh allocation), then transform the copy; returns the updated heap and
the reference of the result. -/
def processData (ctx : QBHCtx) (h : JHeap) (r : Nat) (multi : Bool := false) : JHeap × Nat :=
  let d := (h.get? r).getD []
  (h ++ [processDataBody ctx multi d], h.length)

/-- The fold behind processData on an array input. -/
def processDataMultiAux (ctx : QBHCtx) (st : JHeap × List Nat) (rs : List Nat) :
    JHeap × List Nat :=
  rs.foldl (fun acc r =>
    let step := processData ctx acc.1 r true
    (step.1, acc.2 ++ [step.2])) st

/-- QueryBuilderHelper.processData on an array of dictionary references:
`data.map(d => this.processData(d, true))`. -/
def processDataMulti (ctx : QBHCtx) (h : JHeap) (rs : List Nat) : JHeap × List Nat :=
  processDataMultiAux ctx (h, []) rs

/-! ## SchemaGenerator: data model

Embedding of the SchemaGenerator half of
src/packages/knex/src/query/QueryBuilderHelper.ts (the file's second class).
The platform schema helper is an injected capability object and enters the
model as the function/flag record `SchemaHelperModel`. -/

/-- A declared index/unique flag of a property (`boolean | string`). -/
inductive IdxSpec where
  | off
  | on
  | named (s : String)
deriving DecidableEq

/-- True when the flag is truthy in JS. -/
def IdxSpec.truthy : IdxSpec → Bool
  | .off => false
  | _ => true

/-- `Utils.isString(value) ? value : <derived>`: the explicit name, if any. -/
def IdxSpec.explicitName : IdxSpec → Option String
  | .named s => some s
  | _ => none

/-- The slice of EntityProperty that the schema generator reads. -/
structure SProp where
  name : String
  reference : ReferenceType := .scalar
  type : String := ""
  fieldNames : List String := []
  joinColumns : List String := []
  persist : Bool := true
  primary : Bool := false
  nullable : Bool := false
  owner : Bool := false
  object : Bool := false
  index : IdxSpec := .off
  unique : IdxSpec := .off
  columnTypes : List String := []
  defaultRaw : Option String := none
deriving DecidableEq

/-- A foreign key attached to a live column. -/
structure FKDef where
  columnName : String
  constraintName : String
deriving DecidableEq

/-- One column of a live index. -/
structure ColIndex where
  columnName : String
  keyName : String
  unique : Bool
deriving DecidableEq

/-- A live database column (live-schema side). -/
structure Column where
  name : String
  colType : String := ""
  nullable : Bool := false
  defaultValue : Option String := none
  fk : Option FKDef := none
  indexes : List ColIndex := []
deriving DecidableEq

/-- Per-attribute structural sameness flags returned by the platform helper. -/
structure IsSame where
  all : Bool
  sameTypes : Bool := true
  sameNullable : Bool := true
  sameDefault : Bool := true
  sameIndex : Bool := true
deriving DecidableEq

/-- A declared index/unique of an entity (`properties` already as array). -/
structure MetaIndex where
  name : Option String := none
  properties : List String
  idxType : Option String := none
deriving DecidableEq

/-- A live database table. -/
structure DatabaseTable where
  name : String
  columns : List Column := []
  indexes : List (String × List ColIndex) := []
deriving DecidableEq

/-- DatabaseTable.getColumn. -/
def DatabaseTable.getColumn (t : DatabaseTable) (name : String) : Option Column :=
  t.columns.find? fun c => c.name == name

/-- The slice of EntityMetadata that the schema generator reads. -/
structure SMeta where
  name : String
  collection : String
  props : List SProp := []
  primaryKeys : List String := []
  compositePK : Bool := false
  pivotTable : Bool := false
  embeddable : Bool := false
  root : Option String := none
  indexes : List MetaIndex := []
  uniques : List MetaIndex := []
deriving DecidableEq

/-- The platform schema helper capabilities the generator consults. -/
structure SchemaHelperModel where
  supportsSchemaConstraints : Bool := true
  supportsColumnAlter : Bool := true
  indexForeignKeys : Bool := true
  isSame : SProp → Column → Nat → IsSame
  getIndexName : String → List String → String → String
  isImplicitIndex : String → Bool := fun _ => false

/-- An index to add or drop (IndexDef of the typings). -/
structure IndexDef where
  keyName : String
  columnNames : List String
  unique : Bool
deriving DecidableEq

/-- TableDifference of the typings. -/
structure TableDifference where
  create : List SProp
  update : List (SProp × Column × IsSame)
  remove : List Column
  rename : List (Column × SProp)
  addIndex : List IndexDef
  dropIndex : List IndexDef
deriving DecidableEq

/-- SchemaGenerator.shouldHaveColumn.  Note the source tests
`meta.pivotTable || (ReferenceType.EMBEDDED && prop.object)`, and
`ReferenceType.EMBEDDED` is a truthy string constant, so that disjunct
reduces to `prop.object`. -/
def shouldHaveColumn (helper : SchemaHelperModel) (meta : SMeta) (prop : SProp)
    (update : Bool := false) : Bool :=
  if !prop.persist then
    false
  else if meta.pivotTable || prop.object then
    true
  else if prop.reference != .scalar && !prop.primary &&
      !helper.supportsSchemaConstraints && !update then
    false
  else
    prop.reference == .scalar || prop.reference == .manyToOne ||
      (prop.reference == .oneToOne && prop.owner)

/-- SchemaGenerator.computeColumnDifference: the create/update contributions
of one desired property (the source recursion over joinColumns/fieldNames
flattened into a fold over the indexed column list). -/
def computeColumnDifference (helper : SchemaHelperModel) (table : DatabaseTable)
    (prop : SProp) : List SProp × List (SProp × Column × IsSame) :=
  let cols :=
    if prop.reference == .manyToOne || prop.reference == .oneToOne then
      prop.joinColumns
    else
      prop.fieldNames
  cols.enum.foldl (fun acc p =>
    match table.getColumn p.2 with
    | none => (acc.1 ++ [prop], acc.2)
    | some column =>
      if helper.supportsColumnAlter && !(helper.isSame prop column p.1).all then
        (acc.1, acc.2 ++ [(prop, column, helper.isSame prop column p.1)])
      else acc) ([], [])

/-- JS `array.splice(array.indexOf(x), 1)`: removes the first occurrence if
present, otherwise (`indexOf` returned -1, so `splice(-1, 1)`) removes the
last element. -/
def spliceFind [DecidableEq α] (l : List α) (x : α) : List α :=
  if x ∈ l then l.erase x else l.dropLast

/-- SchemaGenerator.findRenamedColumns.  The source first collects all
matches against the unspliced lists, then splices every matched pair out of
create/remove; it returns the rename list and, through array mutation, the
spliced create and remove lists. -/
def findRenamedColumns (helper : SchemaHelperModel) (create : List SProp)
    (remove : List Column) : List (Column × SProp) × List SProp × List Column :=
  let renamed := create.flatMap fun prop =>
    prop.fieldNames.filterMap fun fieldName =>
      (remove.find? fun column => (helper.isSame prop { column with name := fieldName } 0).all).map
        fun column => (column, prop)
  let create2 := renamed.foldl (fun cr e => spliceFind cr e.2) create
  let remove2 := renamed.foldl (fun rm e => spliceFind rm e.1) remove
  (renamed, create2, remove2)

/-- Name of a declared/derived index as the source's idxName closure. -/
def idxNameOf (helper : SchemaHelperModel) (meta : SMeta) (name : Option String)
    (columns : List String) (type : String) : String :=
  match name with
  | some s => s
  | none => helper.getIndexName meta.collection columns type

/-- Field names of one declared index property list. -/
def indexProperties (meta : SMeta) (ix : MetaIndex) : List String :=
  (ix.properties.map fun pn =>
    ((meta.props.find? fun p => p.name == pn).map fun p => p.fieldNames).getD []).flatten

/-- SchemaGenerator.findIndexDifference. -/
def findIndexDifference (helper : SchemaHelperModel) (meta : SMeta)
    (table : DatabaseTable) (removeIgn : List Column) : List IndexDef × List IndexDef :=
  let existing := table.indexes.map Prod.fst
  let declEntries := (meta.indexes.map fun ix => (ix, false)) ++ (meta.uniques.map fun ix => (ix, true))
  let addEntries := declEntries.map fun e =>
    let properties := indexProperties meta e.1
    let nm := idxNameOf helper meta e.1.name properties (if e.2 then "unique" else "index")
    (nm, properties, e.2)
  let expected1 := addEntries.map fun e => e.1
  let addIndex := (addEntries.filter fun e => !(existing.contains e.1)).map
    fun e => { keyName := e.1, columnNames := e.2.1, unique := e.2.2 : IndexDef }
  let expected2 := meta.props.flatMap fun prop =>
    (if prop.index.truthy then
      [idxNameOf helper meta prop.index.explicitName prop.fieldNames "index"] else []) ++
    (if prop.unique.truthy then
      [idxNameOf helper meta prop.unique.explicitName prop.fieldNames "unique"] else []) ++
    (if prop.reference == .oneToOne || prop.reference == .manyToOne then
      [helper.getIndexName meta.collection prop.fieldNames "index",
       helper.getIndexName meta.collection prop.fieldNames "foreign"] else [])
  let expected := expected1 ++ expected2
  let dropIndex := table.indexes.filterMap fun e =>
    let willBeRemoved := removeIgn.any fun col => e.2.any fun ix => ix.columnName == col.name
    if !(expected.contains e.1) && !(helper.isImplicitIndex e.1) && !willBeRemoved then
      some { keyName := e.1, columnNames := e.2.map (fun ix => ix.columnName),
             unique := ((e.2.head?.map fun ix => ix.unique).getD false) : IndexDef }
    else none
  (addIndex, dropIndex)

/-- The desired columns of computeTableDifference: properties that should
have a column on update. -/
def desiredProps (helper : SchemaHelperModel) (meta : SMeta) : List SProp :=
  meta.props.filter fun prop => shouldHaveColumn helper meta prop true

/-- The initial remove list of computeTableDifference: live columns no
desired property accounts for. -/
def removeStage (helper : SchemaHelperModel) (meta : SMeta) (table : DatabaseTable) :
    List Column :=
  table.columns.filter fun col =>
    !((desiredProps helper meta).any fun prop =>
      prop.fieldNames.contains col.name || prop.joinColumns.contains col.name)

/-- The initial create and update lists of computeTableDifference, before
rename reclassification. -/
def createUpdateStage (helper : SchemaHelperModel) (meta : SMeta) (table : DatabaseTable) :
    List SProp × List (SProp × Column × IsSame) :=
  (desiredProps helper meta).foldl (fun acc prop =>
    let d := computeColumnDifference helper table prop
    (acc.1 ++ d.1, acc.2 ++ d.2)) (([] : List SProp), ([] : List (SProp × Column × IsSame)))

/-- The initial create list alone. -/
def createStage (helper : SchemaHelperModel) (meta : SMeta) (table : DatabaseTable) :
    List SProp :=
  (createUpdateStage helper meta table).1

/-- SchemaGenerator.computeTableDifference. -/
def computeTableDifference (helper : SchemaHelperModel) (meta : SMeta)
    (table : DatabaseTable) (safe : Bool) : TableDifference :=
  let remove0 := removeStage helper meta table
  let crup := createUpdateStage helper meta table
  let rcr := findRenamedColumns helper crup.1 remove0
  let rename := rcr.1
  let create := rcr.2.1
  let remove := rcr.2.2
  let ignore := remove ++ (rename.filter fun e =>
    e.2.reference == .manyToOne || e.2.reference == .oneToOne).map fun e => e.1
  let idxDiff := findIndexDifference helper meta table ignore
  if safe then
    { create := create, update := crup.2, remove := [], rename := rename,
      addIndex := idxDiff.1, dropIndex := idxDiff.2 }
  else
    { create := create, update := crup.2, remove := remove, rename := rename,
      addIndex := idxDiff.1, dropIndex := idxDiff.2 }

/-! ## Commit order calculation -/

/-- Modelled from the spec: CommitOrderCalculator of the core package is not
under src.  Per spec section 4.2 it keeps one node per added root entity and
weighted dependency edges; `addDependency b a w` records that b must exist
before a, with weight 1 for a required foreign key and 0 for a nullable
(deferrable) one. -/
structure CommitOrderCalculator where
  nodes : List String := []
  deps : List (String × String × Nat) := []

def CommitOrderCalculator.addNode (c : CommitOrderCalculator) (name : String) :
    CommitOrderCalculator :=
  if c.nodes.contains name then c else { c with nodes := c.nodes ++ [name] }

def CommitOrderCalculator.hasNode (c : CommitOrderCalculator) (name : String) : Bool :=
  c.nodes.contains name

def CommitOrderCalculator.addDependency (c : CommitOrderCalculator)
    (before after : String) (weight : Nat) : CommitOrderCalculator :=
  { c with deps := c.deps ++ [(before, after, weight)] }

/-- The spec's SchemaDependencyError plus an out-of-fuel marker that the
entry point provably never produces. -/
inductive SchemaDependencyError where
  | requiredCycle
  | outOfFuel
deriving DecidableEq

/-- Node `a` still has an unsatisfied dependency from the remaining set. -/
def hasIncomingAny (deps : List (String × String × Nat)) (remaining : List String)
    (a : String) : Bool :=
  deps.any fun d => d.2.1 == a && remaining.contains d.1

/-- Node `a` still has an unsatisfied required (weight-1) dependency. -/
def hasIncomingReq (deps : List (String × String × Nat)) (remaining : List String)
    (a : String) : Bool :=
  deps.any fun d => d.2.1 == a && remaining.contains d.1 && d.2.2 == 1

/-- Modelled from the spec: pick the next node of the dependency-respecting
topological sort — preferably one with no unsatisfied dependency at all, and
otherwise one whose unsatisfied dependencies are all deferrable (weight 0);
a node with an unsatisfied required dependency is never picked. -/
def pickNode (deps : List (String × String × Nat)) (remaining : List String) :
    Option String :=
  match remaining.find? (fun a => !hasIncomingAny deps remaining a) with
  | some a => some a
  | none => remaining.find? (fun a => !hasIncomingReq deps remaining a)

/-- Modelled from the spec: the topological sort loop.  When every remaining
node keeps an unsatisfied required dependency, the remaining set contains a
cycle made entirely of required edges and SchemaDependencyError is raised.
`fuel` bounds the iteration count; `remaining.length` is always enough. -/
def sortAux (deps : List (String × String × Nat)) :
    Nat → List String → Except SchemaDependencyError (List String)
  | _, [] => .ok []
  | 0, _ :: _ => .error .outOfFuel
  | fuel + 1, a :: rest =>
    match pickNode deps (a :: rest) with
    | none => .error .requiredCycle
    | some x => (sortAux deps fuel ((a :: rest).erase x)).map (x :: ·)

/-- Modelled from the spec: CommitOrderCalculator.sort. -/
def CommitOrderCalculator.sort (c : CommitOrderCalculator) :
    Except SchemaDependencyError (List String) :=
  sortAux c.deps c.nodes.length c.nodes

/-- SchemaGenerator.addCommitDependency (this one is in src): registers a
dependency edge `prop.type before entityName` with weight 0 when the driving
foreign key is nullable and 1 when it is required, for ManyToOne and owning
OneToOne properties only. -/
def addCommitDependency (c : CommitOrderCalculator) (prop : SProp)
    (entityName : String) : CommitOrderCalculator :=
  if !(prop.reference == .oneToOne && prop.owner) && prop.reference != .manyToOne then
    c
  else
    c.addDependency prop.type entityName (if prop.nullable then 0 else 1)

/-- The root-entity filter of SchemaGenerator.getOrderedMetadata. -/
def isRootNonEmbeddable (m : SMeta) : Bool :=
  (m.root.isNone || m.root == some m.name) && !m.embeddable

/-- One property step of the dependency loop of getOrderedMetadata: the
dependency is registered only when the property type is a known node. -/
def commitDepProp (entityName : String) (c : CommitOrderCalculator) (prop : SProp) :
    CommitOrderCalculator :=
  if c.hasNode prop.type then addCommitDependency c prop entityName else c

/-- One entity step of the dependency loop of getOrderedMetadata. -/
def commitDepMeta (c : CommitOrderCalculator) (m : SMeta) : CommitOrderCalculator :=
  m.props.foldl (commitDepProp m.name) c

/-- The node-registration phase of getOrderedMetadata: one node per root
non-embeddable entity. -/
def commitNodesCalc (metas : List SMeta) : CommitOrderCalculator :=
  (metas.filter isRootNonEmbeddable).foldl (fun c m => c.addNode m.name) {}

/-- The calculator built by SchemaGenerator.getOrderedMetadata: one node per
root non-embeddable entity, then dependencies added while popping the entity
list from its end (hence the reversal), for properties whose type is a node. -/
def buildCommitCalc (metas : List SMeta) : CommitOrderCalculator :=
  (metas.filter isRootNonEmbeddable).reverse.foldl commitDepMeta (commitNodesCalc metas)

/-- SchemaGenerator.getOrderedMetadata (returning entity names in commit
order; the source maps the sorted class names back through the metadata
storage). -/
def getOrderedMetadata (metas : List SMeta) : Except SchemaDependencyError (List SMeta) :=
  (buildCommitCalc metas).sort.map fun order =>
    order.filterMap fun n => metas.find? fun m => m.name == n

/-! ## SchemaGenerator: schema update statements -/

/-- The kinds of DDL statements dumped by the schema generator; each
constructor corresponds to one dumped builder of the source. -/
inductive Stmt where
  | createTable (name : String)
  | renameColumn (table : String) (fromCol : Column) (toProp : SProp)
  | alterColumns (table : String) (create : List SProp)
      (update : List (SProp × Column × IsSame)) (remove : List Column)
  | createFKs (table : String) (props : List SProp)
  | createDeclaredIndexes (table : String)
  | addIndexStmt (table : String) (idx : IndexDef)
  | dropIndexStmt (table : String) (idx : IndexDef)
  | dropTable (name : String)

/-- EntityMetadata.relations (core getter, not under src): the non-scalar
properties. -/
def relationsOf (meta : SMeta) : List SProp :=
  meta.props.filter fun p => p.reference != .scalar

/-- SchemaGenerator.createForeignKeys target properties. -/
def fkProps (meta : SMeta) (props : Option (List SProp)) : List SProp :=
  ((relationsOf meta).filter fun prop =>
    match props with
    | some ps => ps.contains prop
    | none => true).filter fun prop =>
      prop.reference == .manyToOne || (prop.reference == .oneToOne && prop.owner)

/-- SchemaGenerator.updateTable: rename statements first, then a single
alter-table statement (dumped only when it renders any operation). -/
def updateTable (helper : SchemaHelperModel) (meta : SMeta) (table : DatabaseTable)
    (safe : Bool) : List Stmt :=
  let d := computeTableDifference helper meta table safe
  if d.create.length + d.update.length + d.remove.length + d.rename.length == 0 then
    []
  else
    (d.rename.map fun e => Stmt.renameColumn table.name e.1 e.2) ++
    (if d.create.isEmpty && d.update.isEmpty && d.remove.isEmpty then []
     else [Stmt.alterColumns meta.collection d.create d.update d.remove])

def getTable (schema : List DatabaseTable) (name : String) : Option DatabaseTable :=
  schema.find? fun t => t.name == name

/-- SchemaGenerator.getUpdateTableSQL. -/
def getUpdateTableSQL (helper : SchemaHelperModel) (meta : SMeta)
    (schema : List DatabaseTable) (safe : Bool) : List Stmt :=
  match getTable schema meta.collection with
  | none => [.createTable meta.collection]
  | some table => updateTable helper meta table safe

/-- SchemaGenerator.getUpdateTableFKsSQL. -/
def getUpdateTableFKsSQL (helper : SchemaHelperModel) (meta : SMeta)
    (schema : List DatabaseTable) : List Stmt :=
  match getTable schema meta.collection with
  | none => [.createFKs meta.collection (fkProps meta none)]
  | some table =>
    let d := computeTableDifference helper meta table true
    if d.create.isEmpty then []
    else [.createFKs meta.collection (fkProps meta (some d.create))]

/-- SchemaGenerator.getUpdateTableIndexesSQL. -/
def getUpdateTableIndexesSQL (helper : SchemaHelperModel) (meta : SMeta)
    (schema : List DatabaseTable) : List Stmt :=
  match getTable schema meta.collection with
  | none => [.createDeclaredIndexes meta.collection]
  | some table =>
    let d := computeTableDifference helper meta table true
    (d.dropIndex.map fun ix => Stmt.dropIndexStmt meta.collection ix) ++
    (d.addIndex.map fun ix => Stmt.addIndexStmt meta.collection ix)

/-- SchemaGenerator.getUpdateSchemaSQL: per-entity updates, then foreign
keys, then indexes, and — only when dropping is allowed and safe mode is
off — a drop-table statement per live table absent from the metadata. -/
def getUpdateSchemaSQL (helper : SchemaHelperModel) (metas : List SMeta)
    (schema : List DatabaseTable) (safe : Bool) (dropTables : Bool) :
    Except SchemaDependencyError (List Stmt) := do
  let metadata ← getOrderedMetadata metas
  let ret := metadata.flatMap (fun m => getUpdateTableSQL helper m schema safe) ++
    metadata.flatMap (fun m => getUpdateTableFKsSQL helper m schema) ++
    metadata.flatMap (fun m => getUpdateTableIndexesSQL helper m schema)
  if !dropTables || safe then
    return ret
  let definedTables := metadata.map fun m => m.collection
  let removeTabs := schema.filter fun t => !(definedTables.contains t.name)
  return ret ++ removeTabs.map fun t => Stmt.dropTable t.name

/-- True for drop-table statements. -/
def Stmt.isDropTable : Stmt → Bool
  | .dropTable _ => true
  | _ => false

/-! ## MetadataDiscovery

Embedding of the relationship-resolution steps of
src/packages/core/src/metadata/MetadataDiscovery.ts needed by the claims:
many-to-one join-column derivation, single-table-inheritance merging and
pivot-table synthesis.  The NamingStrategy collaborator is not under src and
is modelled from the spec. -/

/-- Cascade flags of the core entity package. -/
inductive Cascade where
  | persist | merge | remove | all
deriving DecidableEq

/-- The slice of EntityProperty that metadata discovery manipulates
(columnTypes/unsigned initialization is omitted: initColumnType and
initUnsigned only fill those physical-type fields). -/
structure DProp where
  name : String
  reference : ReferenceType := .scalar
  type : String := ""
  fieldNames : List String := []
  joinColumns : Option (List String) := none
  inverseJoinColumns : Option (List String) := none
  referencedColumnNames : Option (List String) := none
  referencedTableName : Option String := none
  pivotTable : Option String := none
  mappedBy : Option String := none
  inversedBy : Option String := none
  owner : Bool := false
  nullable : Bool := false
  inherited : Bool := false
  primary : Bool := false
  unsigned : Bool := false
  version : Bool := false
  fixedOrder : Bool := false
  fixedOrderColumn : Option String := none
  cascade : List Cascade := []
  isEnum : Bool := false
  items : List String := []
  index : IdxSpec := .off
deriving DecidableEq

/-- The slice of EntityMetadata that metadata discovery manipulates. -/
structure DMeta where
  name : String
  className : String := ""
  collection : String := ""
  properties : List DProp := []
  primaryKeys : List String := []
  compositePK : Bool := false
  pivotTable : Bool := false
  discriminatorColumn : Option String := none
  discriminatorMap : Option (List (String × String)) := none
  discriminatorValue : Option String := none
  indexes : List MetaIndex := []
  uniques : List MetaIndex := []
deriving DecidableEq

/-- MetadataStorage.get as a partial lookup. -/
def dGet (storage : List DMeta) (name : String) : Option DMeta :=
  storage.find? fun m => m.name == name

def DMeta.findProp (m : DMeta) (name : String) : Option DProp :=
  m.properties.find? fun p => p.name == name

/-- The flattened primary-key field names of an entity
(`Utils.flatten(meta.primaryKeys.map(pk => meta.properties[pk].fieldNames))`). -/
def pkFieldNames (m : DMeta) : List String :=
  m.primaryKeys.flatMap fun pk => ((m.findProp pk).map fun p => p.fieldNames).getD []

/-- Modelled from the spec: the NamingStrategy collaborator (a pure mapping
from logical names to physical identifiers, per the glossary) is not under
src.  The defaults model the stock strategy: class and property names map to
themselves, the reference column is id, and a join key column is the owning
name and the referenced column name joined by an underscore. -/
structure NamingStrategyModel where
  classToTableName : String → String := fun s => s
  propertyToColumnName : String → String := fun s => s
  referenceColumnName : String := "id"
  joinColumnName : String → String := fun s => s ++ "_id"
  joinKeyColumnName : String → String → Bool → String := fun n c _ => n ++ "_" ++ c
  joinTableName : String → String → String → String := fun s t p => s ++ "_" ++ t ++ "_" ++ p

/-- The default (spec-modelled) naming strategy. -/
def defaultNS : NamingStrategyModel := {}

/-- MetadataDiscovery.initManyToOneFieldName (the inner initFieldName on the
target primary keys only fills their fieldNames, which the model takes as
already resolved). -/
def initManyToOneFieldName (ns : NamingStrategyModel) (storage : List DMeta)
    (prop : DProp) (name : String) : Option (List String) :=
  (dGet storage prop.type).map fun meta2 =>
    meta2.primaryKeys.flatMap fun pk =>
      match meta2.findProp pk with
      | none => []
      | some pkProp =>
        pkProp.fieldNames.map fun fieldName =>
          ns.joinKeyColumnName name fieldName meta2.compositePK

/-- MetadataDiscovery.initManyToOneFields. -/
def initManyToOneFields (ns : NamingStrategyModel) (storage : List DMeta)
    (prop : DProp) : Option DProp :=
  (dGet storage prop.type).map fun meta2 =>
    let fieldNames := pkFieldNames meta2
    let prop := if prop.referencedTableName.isNone then
        { prop with referencedTableName := some meta2.collection }
      else prop
    let prop := match prop.joinColumns with
      | none =>
        { prop with joinColumns := some (fieldNames.map fun fieldName =>
            ns.joinKeyColumnName prop.name fieldName (fieldNames.length > 1)) }
      | some _ => prop
    match prop.referencedColumnNames with
    | none => { prop with referencedColumnNames := some fieldNames }
    | some _ => prop

/-! ### Single-table inheritance -/

/-- JS object-map assignment `props[p.name] = p`: replace in place or
append. -/
def setDProp (ps : List DProp) (p : DProp) : List DProp :=
  if ps.any (fun q => q.name == p.name) then
    ps.map fun q => if q.name == p.name then p else q
  else
    ps ++ [p]

/-- Some property of that name is present. -/
def hasNamed (props : List DProp) (nm : String) : Prop :=
  ∃ q ∈ props, q.name = nm

/-- Some property of that name is present and nullable. -/
def hasNullableNamed (props : List DProp) (nm : String) : Prop :=
  ∃ q ∈ props, q.name = nm ∧ q.nullable = true

/-- MetadataDiscovery.createDiscriminatorProperty (initColumnType omitted as
above; initFieldName on the fresh scalar property fills its fieldNames). -/
def createDiscriminatorProperty (ns : NamingStrategyModel) (meta : DMeta) : DProp :=
  let name := meta.discriminatorColumn.getD ""
  { name := name, type := "string", isEnum := true, index := .on,
    reference := .scalar,
    items := ((meta.discriminatorMap.getD []).map Prod.fst),
    fieldNames := [ns.propertyToColumnName name] }

/-- One iteration of the property-copy loop of initSingleTableInheritance:
copy the subclass property onto the root property map, forced nullable, and
tagged inherited when no property of that name exists there yet. -/
def stiCopyStep (ps : List DProp) (prop : DProp) : List DProp :=
  let exists_ := (ps.find? fun q => q.name == prop.name).isSome
  let c := { prop with nullable := true }
  let c := if exists_ then c else { c with inherited := true }
  setDProp ps c

/-- The default-discriminator-map stage of initSingleTableInheritance. -/
def stiWithMap (ns : NamingStrategyModel) (allChildren : List DMeta) (root : DMeta) : DMeta :=
  if root.discriminatorMap.isNone then
    { root with discriminatorMap := some (allChildren.map fun m =>
        ((m.discriminatorValue.getD (ns.classToTableName m.className)), m.className)) }
  else root

/-- The discriminator-property stage of initSingleTableInheritance. -/
def stiWithDiscProp (ns : NamingStrategyModel) (root : DMeta) : DMeta :=
  let dcol := root.discriminatorColumn.getD ""
  if (root.findProp dcol).isNone then
    { root with properties := setDProp root.properties (createDiscriminatorProperty ns root) }
  else root

/-- MetadataDiscovery.initSingleTableInheritance, as the transformation of
the hierarchy root performed while processing entity `meta` (the fields the
source sets on `meta` itself — its discriminatorValue — do not affect the
root and are not tracked). -/
def initSingleTableInheritance (ns : NamingStrategyModel) (allChildren : List DMeta)
    (root meta : DMeta) : DMeta :=
  if root.discriminatorColumn.isNone then root
  else
    let root := stiWithMap ns allChildren root
    let root := stiWithDiscProp ns root
    if root.name = meta.name then root
    else
      let props := meta.properties.foldl stiCopyStep root.properties
      { root with
        properties := props,
        indexes := (root.indexes ++ meta.indexes).eraseDups,
        uniques := (root.uniques ++ meta.uniques).eraseDups }

/-- The discovery pass applies initSingleTableInheritance to every entity of
the hierarchy in discovery order; this folds that loop over the root. -/
def resolveSTI (ns : NamingStrategyModel) (root : DMeta) (ordered : List DMeta) : DMeta :=
  ordered.foldl (fun r m => initSingleTableInheritance ns (root :: ordered.filter fun m => m.name != root.name) r m) root

/-! ### Pivot table synthesis -/

/-- MetadataDiscovery.defineFixedOrderProperty: returns the synthesized
primary property and the updated owning property (the fixedOrder mirror on
the inverse side is a storage mutation of the target entity only). -/
def defineFixedOrderProperty (ns : NamingStrategyModel) (prop : DProp) : DProp × DProp :=
  let pk := prop.fixedOrderColumn.getD ns.referenceColumnName
  let primaryProp : DProp :=
    { name := pk, type := "number", reference := .scalar, primary := true,
      unsigned := true, fieldNames := [ns.propertyToColumnName pk] }
  (primaryProp, { prop with fixedOrderColumn := some pk })

/-- MetadataDiscovery.definePivotProperty (initColumnType/initUnsigned
omitted as above). -/
def definePivotProperty (storage : List DMeta) (prop : DProp)
    (name type inverse : String) (owner : Bool) : Option DProp :=
  (dGet storage type).map fun meta =>
    let ret : DProp :=
      { name := name, type := type, reference := .manyToOne,
        cascade := [Cascade.all], fixedOrder := prop.fixedOrder,
        fixedOrderColumn := prop.fixedOrderColumn,
        referencedTableName := some meta.collection }
    if owner then
      { ret with
        owner := true, inversedBy := some inverse,
        referencedColumnNames := prop.referencedColumnNames,
        fieldNames := prop.joinColumns.getD [],
        joinColumns := prop.joinColumns,
        inverseJoinColumns := prop.referencedColumnNames }
    else
      let refCols := pkFieldNames meta
      { ret with
        owner := false, mappedBy := some inverse,
        fieldNames := prop.inverseJoinColumns.getD [],
        joinColumns := prop.inverseJoinColumns,
        referencedColumnNames := some refCols,
        inverseJoinColumns := some refCols }

/-- MetadataDiscovery.definePivotTableEntity: returns the synthesized pivot
entity and the updated owning property (the mirror update of the inverse
property when `prop.inversedBy` is set only touches the target entity in
storage). -/
def definePivotTableEntity (ns : NamingStrategyModel) (storage : List DMeta)
    (meta : DMeta) (prop : DProp) : Option (DMeta × DProp) :=
  let data0 : DMeta :=
    { name := prop.pivotTable.getD "", className := prop.pivotTable.getD "",
      collection := prop.pivotTable.getD "", pivotTable := true }
  let step1 :=
    if prop.fixedOrder then
      let fo := defineFixedOrderProperty ns prop
      ({ data0 with properties := [fo.1], primaryKeys := [fo.1.name] }, fo.2)
    else
      ({ data0 with
         primaryKeys := [meta.name ++ "_owner", prop.type ++ "_inverse"],
         compositePK := true }, prop)
  let data := step1.1
  let prop := step1.2
  let prop :=
    if meta.name == prop.type &&
        (prop.joinColumns.getD []).isPrefixOf (prop.inverseJoinColumns.getD []) &&
        (prop.joinColumns.getD []).length == (prop.inverseJoinColumns.getD []).length then
      { prop with
        joinColumns := some ((prop.referencedColumnNames.getD []).map fun n =>
          ns.joinKeyColumnName (meta.collection ++ "_1") n meta.compositePK),
        inverseJoinColumns := some ((prop.referencedColumnNames.getD []).map fun n =>
          ns.joinKeyColumnName (meta.collection ++ "_2") n meta.compositePK) }
    else prop
  do
    let ownerProp ← definePivotProperty storage prop (meta.name ++ "_owner") meta.name
      (prop.type ++ "_inverse") true
    let inverseProp ← definePivotProperty storage prop (prop.type ++ "_inverse") prop.type
      (meta.name ++ "_owner") false
    pure ({ data with properties := data.properties ++ [ownerProp, inverseProp] }, prop)

/-! ## Graph notions for the commit-order claims -/

/-- A required (weight-1) dependency edge: `b` must exist before `a`. -/
def ReqEdge (deps : List (String × String × Nat)) (b a : String) : Prop :=
  (b, a, 1) ∈ deps

/-- Any dependency edge, of either weight. -/
def AnyEdge (deps : List (String × String × Nat)) (b a : String) : Prop :=
  ∃ w, (b, a, w) ∈ deps

/-- The nodes `a :: l` form a directed cycle under `R`: consecutive edges
along the list, and an edge from the last node back to the head. -/
def cycleOn (R : String → String → Prop) (a : String) (l : List String) : Prop :=
  List.Chain R a l ∧ R ((a :: l).getLast (List.cons_ne_nil a l)) a

/-- `b` occurs strictly before `a` in the list. -/
def precedes (l : List String) (b a : String) : Prop :=
  ∃ i j : Nat, i < j ∧ l[i]? = some b ∧ l[j]? = some a

/-- Descending sequence list used to extract a cycle from repeated iterates:
`descSeq y m t = [y (m+t-1), ..., y (m+1), y m]`. -/
def descSeq (y : Nat → String) (m : Nat) : Nat → List String
  | 0 => []
  | t + 1 => y (m + t) :: descSeq y m t

/-! ## Concrete fixtures used by witnesses and counterexamples -/

/-- A query-builder helper context over a single Book entity. -/
def qtestCtx : QBHCtx :=
  { entityName := "Book", aliasName := "e0",
    metadata := [{ name := "Book", tableName := "book",
                   properties := [{ name := "a", fieldNames := ["a"] },
                                  { name := "b", fieldNames := ["b"] },
                                  { name := "name", fieldNames := ["name"] }],
                   primaryKeys := ["id"] }] }

/-- The two-member all-equality $or condition of the C5 scenario. -/
def orPair : List (String × CVal) :=
  [("$or", .arr [.obj [("a", .int 1)], .obj [("b", .int 2)]])]

/-- The single-member $or condition of the C5 scenario. -/
def orSingle : List (String × CVal) :=
  [("$or", .arr [.obj [("a", .int 1)]])]

/-- The $or condition with one single-key operator-object member. -/
def orGtMember : List (String × CVal) :=
  [("$or", .arr [.obj [("a", .obj [("$gt", .int 1)])], .obj [("b", .int 2)]])]

/-- The $or condition with one multi-key operator-object member. -/
def orMultiKeyMember : List (String × CVal) :=
  [("$or", .arr [.obj [("a", .obj [("$gt", .int 1), ("$lt", .int 5)])], .obj [("b", .int 2)]])]

/-- A context whose Book entity has no version property. -/
def noVersionCtx : QBHCtx :=
  { entityName := "Book", aliasName := "e0",
    metadata := [{ name := "Book", tableName := "book" }] }

/-- A trivial always-same platform helper used by concrete schema runs. -/
def wHelper : SchemaHelperModel :=
  { isSame := fun _ _ _ => { all := true },
    getIndexName := fun t _ ty => t ++ "_" ++ ty }

/-- A one-entity metadata set used by concrete schema runs. -/
def wMeta : SMeta :=
  { name := "Author", collection := "author",
    props := [{ name := "id", primary := true, fieldNames := ["id"] }] }

/-- A composite-key target entity for the C7 witness. -/
def c7Target : DMeta :=
  { name := "Target", collection := "target", primaryKeys := ["p1", "p2"],
    compositePK := true,
    properties := [{ name := "p1", fieldNames := ["p1a"] },
                   { name := "p2", fieldNames := ["p2a"] }] }

/-- A ManyToOne property pointing at the composite target. -/
def c7Prop : DProp :=
  { name := "owner", reference := .manyToOne, type := "Target" }

/-- The self-referential many-to-many Friend property of the C9 witness. -/
def friendProp : DProp :=
  { name := "friends", reference := .manyToMany, type := "Friend", owner := true,
    pivotTable := some "friend_to_friend",
    referencedColumnNames := some ["id"],
    joinColumns := some ["friend_id"], inverseJoinColumns := some ["friend_id"] }

/-- The Friend entity of the C9 witness. -/
def friendMeta : DMeta :=
  { name := "Friend", className := "Friend", collection := "friend",
    properties := [{ name := "id", primary := true, fieldNames := ["id"] }, friendProp],
    primaryKeys := ["id"] }

/-- The inherited-tag invariant of the single-table-inheritance merge: every
tagged property has a name the original root never declared, and every
original root name stays present. -/
def stiInv (root0props props : List DProp) : Prop :=
  (∀ q ∈ props, q.inherited = true → ¬ hasNamed root0props q.name) ∧
  (∀ p ∈ root0props, hasNamed props p.name)

def stiRoot : DMeta :=
  { name := "Base", className := "Base", collection := "base",
    discriminatorColumn := some "type",
    properties := [
      { name := "id", primary := true, fieldNames := ["id"] },
      { name := "x", fieldNames := ["x"] }] }

def stiSub : DMeta :=
  { name := "Sub", className := "Sub", collection := "base",
    properties := [
      { name := "x", fieldNames := ["x"] },
      { name := "y", fieldNames := ["y"] }] }

def structIsSame : SProp → Column → Nat → IsSame := fun p c _ =>
  let st := p.columnTypes.headD "" == c.colType
  let sn := p.nullable == c.nullable
  let sd := p.defaultRaw == c.defaultValue
  { all := st && sn && sd, sameTypes := st, sameNullable := sn, sameDefault := sd }

def c3Helper : SchemaHelperModel :=
  { isSame := structIsSame, getIndexName := fun t _ ty => t ++ "_" ++ ty }

def c3Prop : SProp := { name := "p", fieldNames := ["x"], columnTypes := ["int"] }

def c3ColA : Column := { name := "a", colType := "int" }

def c3ColB : Column := { name := "b", colType := "int" }

def c3Meta : SMeta := { name := "E", collection := "e", props := [c3Prop] }

def c3Table : DatabaseTable := { name := "e", columns := [c3ColA, c3ColB] }

def c1AuthorProp : SProp :=
  { name := "author", reference := .manyToOne, type := "Author",
    fieldNames := ["author_id"], joinColumns := ["author_id"] }

def c1Book : SMeta := { name := "Book", collection := "book", props := [c1AuthorProp] }

def c1Author : SMeta := { name := "Author", collection := "author", props := [] }

def c1Metas : List SMeta := [c1Book, c1Author]

/-! # Theorems -/



/-- C4: the regex-to-LIKE rewrite maps `^foo.*bar$` to `foo%bar`, `^foo` to
`foo%`, `bar$` to `%bar` and `foo` to `%foo%`, and every pattern containing
an opening brace, bracket or parenthesis is classified as not simple and is
compiled through the platform's native regex operator with its source
unmodified. -/
theorem regexLikeRewrite_c4 :
    (getRegExpParam "^foo.*bar$".data = "foo%bar".data ∧
     getRegExpParam "^foo".data = "foo%".data ∧
     getRegExpParam "bar$".data = "%bar".data ∧
     getRegExpParam "foo".data = "%foo%".data) ∧
    ∀ src : String, ('(' ∈ src.data ∨ '[' ∈ src.data ∨ '{' ∈ src.data) →
      isSimpleRegExpSource src.data = false ∧
      ∀ (fuel : Nat) (ctx : QBHCtx) (type : QueryType) (method : WMethod)
        (key : String) (operator : Option Conn) (qb : KnexQB),
        ctx.subQueries.lookup key = none →
        appendQuerySubCondition (fuel + 2) ctx type method [(key, .regex src)] key operator qb =
          .ok (qb ++ [((if operator == some .or then Conn.or else Conn.and),
            .leaf (mapper ctx key type) ctx.regexpOperator (.str src))]) := by
  refine ⟨⟨by decide, by decide, by decide, by decide⟩, ?_⟩
  intro src hsrc
  have hany : (src.data.any fun c => c = '{' || c = '[' || c = '(') = true := by
    rw [List.any_eq_true]
    rcases hsrc with h | h | h
    · exact ⟨'(', h, by decide⟩
    · exact ⟨'[', h, by decide⟩
    · exact ⟨'{', h, by decide⟩
  have hs : isSimpleRegExpSource src.data = false := by
    simp [isSimpleRegExpSource, hany]
  refine ⟨hs, ?_⟩
  intro fuel ctx type method key operator qb hsub
  simp [appendQuerySubCondition, qcRun, hs, hsub, keysSize, objEntries,
    OPERATORS, hasKey, objLookup, getOperatorReplacement, List.lookup, List.find?]
  rfl

/-- Witness for C4 at the concrete complex pattern fo(o. -/
theorem regexLikeRewrite_c4_witness :
    isSimpleRegExpSource "fo(o".data = false ∧
    appendQuerySubCondition 5 qtestCtx .select .whereM [("name", .regex "fo(o")] "name" none [] =
      .ok [(Conn.and, .leaf (mapper qtestCtx "name" .select) qtestCtx.regexpOperator
        (.str "fo(o"))] := by
  have h := regexLikeRewrite_c4.2 "fo(o" (Or.inl (by decide))
  exact ⟨h.1, h.2 3 qtestCtx .select .whereM "name" none [] rfl⟩

/-- C5 counterexample: the two-member all-equality $or group does not
compile to an unparenthesized OR chain; the compiler wraps it in one
callback group (rendered parenthesized by knex). -/
theorem orGroupParens_c5_counterexample :
    appendQueryCondition 10 qtestCtx .select orPair .whereM none [] =
      .ok [(Conn.and, WClause.group false
        [(Conn.or, .leaf (.plain "e0.a") "=" (.int 1)),
         (Conn.or, .leaf (.plain "e0.b") "=" (.int 2))])] ∧
    containsGroup [(Conn.and, WClause.group false
        [(Conn.or, .leaf (.plain "e0.a") "=" (.int 1)),
         (Conn.or, .leaf (.plain "e0.b") "=" (.int 2))])] = true := by
  exact ⟨by rfl, by rfl⟩

/-- C5 (amended): a single-member $or group compiles without any group
node; a multi-member group always compiles as exactly one callback group
(rendered with one pair of parentheses), into which both plain equalities
and single-key operator-object members such as a gt-comparison are inlined
without parentheses of their own; only a member whose value object carries
more than one operator key receives its own nested group. -/
theorem orGroupParens_c5_amended :
    appendQueryCondition 10 qtestCtx .select orSingle .whereM none [] =
      .ok [(Conn.and, .leaf (.plain "e0.a") "=" (.int 1))] ∧
    appendQueryCondition 10 qtestCtx .select orPair .whereM none [] =
      .ok [(Conn.and, WClause.group false
        [(Conn.or, .leaf (.plain "e0.a") "=" (.int 1)),
         (Conn.or, .leaf (.plain "e0.b") "=" (.int 2))])] ∧
    appendQueryCondition 10 qtestCtx .select orGtMember .whereM none [] =
      .ok [(Conn.and, WClause.group false
        [(Conn.or, .leaf (.plain "e0.a") ">" (.int 1)),
         (Conn.or, .leaf (.plain "e0.b") "=" (.int 2))])] ∧
    appendQueryCondition 10 qtestCtx .select orMultiKeyMember .whereM none [] =
      .ok [(Conn.and, WClause.group false
        [(Conn.or, WClause.group false
           [(Conn.and, .leaf (.plain "e0.a") ">" (.int 1)),
            (Conn.and, .leaf (.plain "e0.a") "<" (.int 5))]),
         (Conn.or, .leaf (.plain "e0.b") "=" (.int 2))])] := by
  exact ⟨by rfl, by rfl, by rfl, by rfl⟩

/-- C6: requesting an OPTIMISTIC lock for an entity whose metadata lacks a
version property raises the configuration error synchronously, before any
lock SQL is produced; PESSIMISTIC_READ and PESSIMISTIC_WRITE return their
locking clause immediately and never perform the version check. -/
theorem optimisticLockCheck_c6 :
    ∀ (ctx : QBHCtx) (meta : QMeta),
      findEntityMeta ctx ctx.entityName = some meta →
      meta.versionProperty = none →
      getLockSQL ctx (some .optimistic) = .error (.optimisticLockFailed ctx.entityName) ∧
      (∀ ctx2 : QBHCtx, getLockSQL ctx2 (some .pessimisticRead) = .ok (some .forShare)) ∧
      (∀ ctx2 : QBHCtx, getLockSQL ctx2 (some .pessimisticWrite) = .ok (some .forUpdate)) := by
  intro ctx meta hfind hver
  refine ⟨?_, fun ctx2 => rfl, fun ctx2 => rfl⟩
  simp [getLockSQL, hfind, hver]

/-- Witness for C6 on a concrete version-less entity. -/
theorem optimisticLockCheck_c6_witness :
    getLockSQL noVersionCtx (some .optimistic) = .error (.optimisticLockFailed "Book") ∧
    getLockSQL noVersionCtx (some .pessimisticRead) = .ok (some .forShare) ∧
    getLockSQL noVersionCtx (some .pessimisticWrite) = .ok (some .forUpdate) := by
  have h := optimisticLockCheck_c6 noVersionCtx { name := "Book", tableName := "book" } rfl rfl
  exact ⟨h.1, h.2.1 noVersionCtx, h.2.2 noVersionCtx⟩

/-- The heap prefix below the starting length survives the array fold of
processData, and every reference it returns is freshly allocated. -/
theorem processDataMultiAux_spec (ctx : QBHCtx) :
    ∀ (rs : List Nat) (st : JHeap × List Nat),
      (∃ ext, (processDataMultiAux ctx st rs).1 = st.1 ++ ext) ∧
      ∀ r2 ∈ (processDataMultiAux ctx st rs).2, r2 ∈ st.2 ∨ st.1.length ≤ r2 := by
  intro rs
  induction rs with
  | nil =>
    intro st
    exact ⟨⟨[], by simp [processDataMultiAux]⟩, fun r2 hr => Or.inl hr⟩
  | cons r rest ih =>
    intro st
    have hstep : processDataMultiAux ctx st (r :: rest) =
        processDataMultiAux ctx ((processData ctx st.1 r true).1,
          st.2 ++ [(processData ctx st.1 r true).2]) rest := by
      simp [processDataMultiAux]
    obtain ⟨⟨ext, h1⟩, h2⟩ := ih ((processData ctx st.1 r true).1,
      st.2 ++ [(processData ctx st.1 r true).2])
    constructor
    · refine ⟨[processDataBody ctx true ((st.1.get? r).getD [])] ++ ext, ?_⟩
      rw [hstep, h1]
      simp [processData]
    · intro r2 hr2
      rw [hstep] at hr2
      rcases h2 r2 hr2 with h | h
      · rcases List.mem_append.mp h with h | h
        · exact Or.inl h
        · right
          simp only [List.mem_singleton] at h

          simp [h, processData]
      · right
        simp only [processData, List.length_append] at h
        omega

/-- C10: processData never mutates its argument: the whole pre-existing
heap survives unchanged, the returned dictionary is a fresh reference, and
the array form likewise returns only fresh references over an unchanged
heap prefix. -/
theorem processDataFrame_c10 :
    ∀ (ctx : QBHCtx) (h : JHeap) (r : Nat) (multi : Bool),
      (processData ctx h r multi).1.take h.length = h ∧
      (processData ctx h r multi).2 = h.length ∧
      ∀ rs : List Nat,
        (processDataMulti ctx h rs).1.take h.length = h ∧
        ((processDataMulti ctx h rs).2.all fun r2 => h.length ≤ r2) = true := by
  intro ctx h r multi
  refine ⟨?_, rfl, ?_⟩
  · simp [processData]
  · intro rs
    obtain ⟨⟨ext, h1⟩, h2⟩ := processDataMultiAux_spec ctx rs (h, [])
    constructor
    · simp [processDataMulti, h1]
    · rw [List.all_eq_true]
      intro r2 hr2
      rcases h2 r2 hr2 with hmem | hle
      · simp at hmem
      · simpa using hle

/-- The per-table update statements contain no drop-table statement. -/
theorem updateTable_no_dropTable (helper : SchemaHelperModel) (meta : SMeta)
    (table : DatabaseTable) (safe : Bool) :
    ∀ s ∈ updateTable helper meta table safe, s.isDropTable = false := by
  intro s hs
  simp only [updateTable] at hs
  split at hs
  · simp at hs
  · rcases List.mem_append.mp hs with h | h
    · obtain ⟨e, _, rfl⟩ := List.mem_map.mp h
      rfl
    · split at h
      · simp at h
      · simp only [List.mem_singleton] at h
        subst h
        rfl

/-- getUpdateTableSQL emits no drop-table statement. -/
theorem getUpdateTableSQL_no_dropTable (helper : SchemaHelperModel) (meta : SMeta)
    (schema : List DatabaseTable) (safe : Bool) :
    ∀ s ∈ getUpdateTableSQL helper meta schema safe, s.isDropTable = false := by
  intro s hs
  unfold getUpdateTableSQL at hs
  split at hs
  · simp only [List.mem_singleton] at hs
    subst hs
    rfl
  · exact updateTable_no_dropTable helper meta _ safe s hs

/-- getUpdateTableFKsSQL emits no drop-table statement. -/
theorem getUpdateTableFKsSQL_no_dropTable (helper : SchemaHelperModel) (meta : SMeta)
    (schema : List DatabaseTable) :
    ∀ s ∈ getUpdateTableFKsSQL helper meta schema, s.isDropTable = false := by
  intro s hs
  simp only [getUpdateTableFKsSQL] at hs
  split at hs
  · simp only [List.mem_singleton] at hs
    subst hs
    rfl
  · split at hs
    · simp at hs
    · simp only [List.mem_singleton] at hs
      subst hs
      rfl

/-- getUpdateTableIndexesSQL emits no drop-table statement. -/
theorem getUpdateTableIndexesSQL_no_dropTable (helper : SchemaHelperModel) (meta : SMeta)
    (schema : List DatabaseTable) :
    ∀ s ∈ getUpdateTableIndexesSQL helper meta schema, s.isDropTable = false := by
  intro s hs
  unfold getUpdateTableIndexesSQL at hs
  split at hs
  · simp only [List.mem_singleton] at hs
    subst hs
    rfl
  · rcases List.mem_append.mp hs with h | h <;>
    · obtain ⟨e, _, rfl⟩ := List.mem_map.mp h
      rfl

/-- C2: with safe mode enabled the schema-update output contains no drop
operations of the claimed kinds: computeTableDifference returns an empty
remove list, and getUpdateSchemaSQL emits no drop-table statement for live
tables absent from the metadata. -/
theorem safeModeNoDrops_c2 :
    (∀ (helper : SchemaHelperModel) (meta : SMeta) (table : DatabaseTable),
      (computeTableDifference helper meta table true).remove = []) ∧
    ∀ (helper : SchemaHelperModel) (metas : List SMeta) (schema : List DatabaseTable)
      (dropTables : Bool) (out : List Stmt),
      getUpdateSchemaSQL helper metas schema true dropTables = .ok out →
      ∀ s ∈ out, s.isDropTable = false := by
  constructor
  · intro helper meta table
    rfl
  · intro helper metas schema dropTables out hok s hs
    unfold getUpdateSchemaSQL at hok
    cases hord : getOrderedMetadata metas with
    | error e =>
      rw [hord] at hok
      simp [Bind.bind, Except.bind] at hok
    | ok md =>
      rw [hord] at hok
      simp [Bind.bind, Except.bind, Bool.or_true, pure, Except.pure] at hok
      subst hok
      rcases List.mem_append.mp hs with h | h
      · obtain ⟨m, _, hsm⟩ := List.mem_flatMap.mp h
        exact getUpdateTableSQL_no_dropTable helper m schema true s hsm
      · rcases List.mem_append.mp h with h1 | h1
        · obtain ⟨m, _, hsm⟩ := List.mem_flatMap.mp h1
          exact getUpdateTableFKsSQL_no_dropTable helper m schema s hsm
        · obtain ⟨m, _, hsm⟩ := List.mem_flatMap.mp h1
          exact getUpdateTableIndexesSQL_no_dropTable helper m schema s hsm

/-- Witness for C2 on a concrete metadata/schema pair. -/
theorem safeModeNoDrops_c2_witness :
    (computeTableDifference wHelper wMeta { name := "author" } true).remove = [] ∧
    ∀ s ∈ [Stmt.createTable "author", Stmt.createFKs "author" [],
           Stmt.createDeclaredIndexes "author"], s.isDropTable = false := by
  refine ⟨safeModeNoDrops_c2.1 wHelper wMeta { name := "author" }, ?_⟩
  exact safeModeNoDrops_c2.2 wHelper [wMeta] [] true _ (by rfl)

/-- C7: for a ManyToOne (or owning OneToOne) property whose join columns are
not explicitly configured, initManyToOneFields derives exactly one join
column per flattened primary-key field name of the target, in the target's
primary-key order, so the join-column count equals the target's primary-key
component count. -/
theorem joinColumnArity_c7 :
    ∀ (ns : NamingStrategyModel) (storage : List DMeta) (prop prop2 : DProp) (meta2 : DMeta),
      dGet storage prop.type = some meta2 →
      prop.joinColumns = none →
      initManyToOneFields ns storage prop = some prop2 →
      prop2.joinColumns = some ((pkFieldNames meta2).map fun fieldName =>
        ns.joinKeyColumnName prop.name fieldName ((pkFieldNames meta2).length > 1)) ∧
      (prop2.joinColumns.getD []).length = (pkFieldNames meta2).length := by
  intro ns storage prop prop2 meta2 hget hjc hres
  unfold initManyToOneFields at hres
  rw [hget] at hres
  simp only [Option.map_some', Option.some.injEq] at hres
  subst hres
  refine ⟨?_, ?_⟩ <;>
    cases hrt : prop.referencedTableName <;>
    cases hrc : prop.referencedColumnNames <;>
    simp [hrt, hrc, hjc]

/-- Witness for C7 on a composite (two-component) target key. -/
theorem joinColumnArity_c7_witness :
    ∃ prop2, initManyToOneFields defaultNS [c7Target] c7Prop = some prop2 ∧
      prop2.joinColumns = some ((pkFieldNames c7Target).map fun f =>
        defaultNS.joinKeyColumnName c7Prop.name f ((pkFieldNames c7Target).length > 1)) ∧
      (prop2.joinColumns.getD []).length = (pkFieldNames c7Target).length := by
  obtain ⟨prop2, hp⟩ : ∃ p, initManyToOneFields defaultNS [c7Target] c7Prop = some p :=
    ⟨_, rfl⟩
  have h := joinColumnArity_c7 defaultNS [c7Target] c7Prop prop2 c7Target rfl rfl hp
  exact ⟨prop2, hp, h.1, h.2⟩

/-- Join keys derived from the owner table name suffixed _1 never collide
with those derived from the name suffixed _2. -/
theorem collSuffixNe (coll n1 n2 : String) :
    (coll ++ "_1") ++ "_" ++ n1 ≠ (coll ++ "_2") ++ "_" ++ n2 := by
  intro h
  have hd := congrArg String.data h
  simp only [String.data_append, List.append_assoc] at hd
  have h2 := List.append_cancel_left hd
  simp at h2

/-- C9: for a self-referential many-to-many property whose derived owner and
inverse join columns would be identical, pivot-table synthesis disambiguates
the owner set with the source table name suffixed _1 and the inverse set
with the name suffixed _2 (one join key per referenced column), and the two
join-column sets of the two ManyToOne properties of the synthesized pivot
entity share no column name. -/
theorem pivotSelfRefDisambiguation_c9 :
    ∀ (storage : List DMeta) (meta : DMeta) (prop : DProp) (metaT : DMeta) (cols : List String),
      meta.name = prop.type →
      prop.joinColumns = some cols →
      prop.inverseJoinColumns = some cols →
      prop.fixedOrder = false →
      dGet storage prop.type = some metaT →
      ((definePivotTableEntity defaultNS storage meta prop).map fun r =>
        (r.2.joinColumns, r.2.inverseJoinColumns,
         r.1.properties.map fun q => q.joinColumns)) =
      some
        (some ((prop.referencedColumnNames.getD []).map fun n =>
          (meta.collection ++ "_1") ++ "_" ++ n),
         some ((prop.referencedColumnNames.getD []).map fun n =>
          (meta.collection ++ "_2") ++ "_" ++ n),
         [some ((prop.referencedColumnNames.getD []).map fun n =>
          (meta.collection ++ "_1") ++ "_" ++ n),
          some ((prop.referencedColumnNames.getD []).map fun n =>
          (meta.collection ++ "_2") ++ "_" ++ n)]) ∧
      ∀ x ∈ (prop.referencedColumnNames.getD []).map fun n =>
          (meta.collection ++ "_1") ++ "_" ++ n,
        x ∉ (prop.referencedColumnNames.getD []).map fun n =>
          (meta.collection ++ "_2") ++ "_" ++ n := by
  intro storage meta prop metaT cols hname hjc hijc hfo hget
  have hbeq : (meta.name == prop.type) = true := beq_iff_eq.mpr hname
  have hgetM : dGet storage meta.name = some metaT := by rw [hname]; exact hget
  constructor
  · simp [definePivotTableEntity, definePivotProperty, hbeq, hfo, hjc, hijc, hget, hgetM,
      List.isPrefixOf_iff_prefix, defaultNS]
  · intro x hx hx2
    simp only [List.mem_map] at hx hx2
    obtain ⟨n1, _, h1⟩ := hx
    obtain ⟨n2, _, h2⟩ := hx2
    exact collSuffixNe meta.collection n1 n2 (h1.trans h2.symm)

/-- Witness for C9 on the Friend-to-Friend scenario. -/
theorem pivotSelfRefDisambiguation_c9_witness :
    ((definePivotTableEntity defaultNS [friendMeta] friendMeta friendProp).map fun r =>
      (r.2.joinColumns, r.2.inverseJoinColumns,
       r.1.properties.map fun q => q.joinColumns)) =
      some (some ["friend_1_id"], some ["friend_2_id"],
        [some ["friend_1_id"], some ["friend_2_id"]]) ∧
    ∀ x ∈ ["friend_1_id"], x ∉ ["friend_2_id"] := by
  have h := pivotSelfRefDisambiguation_c9 [friendMeta] friendMeta friendProp friendMeta
    ["friend_id"] rfl rfl rfl rfl rfl
  exact ⟨h.1, h.2⟩

/-! ### Single-table inheritance lemmas -/

/-- The assigned property is in the updated map. -/
theorem mem_setDProp_self (ps : List DProp) (p : DProp) : p ∈ setDProp ps p := by
  unfold setDProp
  split
  · rename_i h
    obtain ⟨q0, hq0, hn⟩ := List.any_eq_true.mp h
    exact List.mem_map.mpr ⟨q0, hq0, by simp [hn]⟩
  · exact List.mem_append_right _ (List.mem_singleton.mpr rfl)

/-- Properties of other names survive an assignment. -/
theorem mem_setDProp_of_ne (ps : List DProp) (p q : DProp) (hq : q ∈ ps)
    (hne : q.name ≠ p.name) : q ∈ setDProp ps p := by
  unfold setDProp
  split
  · exact List.mem_map.mpr ⟨q, hq, by simp [hne]⟩
  · exact List.mem_append_left _ hq

/-- Everything in the updated map is the assigned property or an original. -/
theorem mem_setDProp_cases (ps : List DProp) (p q : DProp) (h : q ∈ setDProp ps p) :
    q = p ∨ q ∈ ps := by
  unfold setDProp at h
  split at h
  · obtain ⟨q0, hq0, heq⟩ := List.mem_map.mp h
    by_cases hc : q0.name = p.name
    · left
      rw [← heq]
      simp [hc]
    · right
      rw [← heq]
      simpa [hc] using hq0
  · rcases List.mem_append.mp h with h | h
    · exact Or.inr h
    · exact Or.inl (List.mem_singleton.mp h)

/-- Name presence survives an assignment. -/
theorem hasNamed_setDProp (ps : List DProp) (p : DProp) (nm : String)
    (h : hasNamed ps nm) : hasNamed (setDProp ps p) nm := by
  by_cases hc : p.name = nm
  · exact ⟨p, mem_setDProp_self ps p, hc⟩
  · obtain ⟨q, hq, hqn⟩ := h
    exact ⟨q, mem_setDProp_of_ne ps p q hq (by rw [hqn]; exact fun hh => hc hh.symm), hqn⟩

/-- Nullable name presence survives an assignment whose value is nullable or
differently named. -/
theorem hasNullableNamed_setDProp (ps : List DProp) (p : DProp) (nm : String)
    (h : hasNullableNamed ps nm) (hp : p.nullable = true ∨ p.name ≠ nm) :
    hasNullableNamed (setDProp ps p) nm := by
  by_cases hc : p.name = nm
  · have hnul : p.nullable = true := by
      rcases hp with h1 | h1
      · exact h1
      · exact absurd hc h1
    exact ⟨p, mem_setDProp_self ps p, hc, hnul⟩
  · obtain ⟨q, hq, hqn, hqnul⟩ := h
    exact ⟨q, mem_setDProp_of_ne ps p q hq (by rw [hqn]; exact fun hh => hc hh.symm), hqn, hqnul⟩

/-- The copy step writes a nullable property under the subclass name. -/
theorem stiCopyStep_establishes (ps : List DProp) (prop : DProp) :
    hasNullableNamed (stiCopyStep ps prop) prop.name := by
  simp only [stiCopyStep]
  split
  · exact ⟨_, mem_setDProp_self _ _, rfl, rfl⟩
  · exact ⟨_, mem_setDProp_self _ _, rfl, rfl⟩

/-- The copy step preserves nullable name presence. -/
theorem stiCopyStep_preserves (ps : List DProp) (prop : DProp) (nm : String)
    (h : hasNullableNamed ps nm) : hasNullableNamed (stiCopyStep ps prop) nm := by
  simp only [stiCopyStep]
  split
  · exact hasNullableNamed_setDProp _ _ _ h (Or.inl rfl)
  · exact hasNullableNamed_setDProp _ _ _ h (Or.inl rfl)

/-- The copy step preserves name presence. -/
theorem stiCopyStep_preserves_named (ps : List DProp) (prop : DProp) (nm : String)
    (h : hasNamed ps nm) : hasNamed (stiCopyStep ps prop) nm := by
  simp only [stiCopyStep]
  split
  · exact hasNamed_setDProp _ _ _ h
  · exact hasNamed_setDProp _ _ _ h

/-- Folding the copy loop preserves nullable name presence. -/
theorem foldl_stiCopyStep_preserves (props : List DProp) :
    ∀ (d : List DProp) (nm : String), hasNullableNamed d nm →
      hasNullableNamed (props.foldl stiCopyStep d) nm := by
  induction props with
  | nil => intro d nm h; exact h
  | cons p rest ih =>
    intro d nm h
    exact ih (stiCopyStep d p) nm (stiCopyStep_preserves d p nm h)

/-- Folding the copy loop preserves name presence. -/
theorem foldl_stiCopyStep_preserves_named (props : List DProp) :
    ∀ (d : List DProp) (nm : String), hasNamed d nm →
      hasNamed (props.foldl stiCopyStep d) nm := by
  induction props with
  | nil => intro d nm h; exact h
  | cons p rest ih =>
    intro d nm h
    exact ih (stiCopyStep d p) nm (stiCopyStep_preserves_named d p nm h)

/-- After the copy loop every subclass property name is present nullable. -/
theorem foldl_stiCopyStep_establishes (props : List DProp) :
    ∀ (d : List DProp), ∀ p ∈ props,
      hasNullableNamed (props.foldl stiCopyStep d) p.name := by
  induction props with
  | nil => intro d p hp; cases hp
  | cons q rest ih =>
    intro d p hp
    rcases List.mem_cons.mp hp with h | h
    · subst h
      exact foldl_stiCopyStep_preserves rest (stiCopyStep d p) p.name
        (stiCopyStep_establishes d p)
    · exact ih (stiCopyStep d q) p h

/-- The map stage does not touch properties, name or discriminator column. -/
theorem stiWithMap_props (ns : NamingStrategyModel) (ch : List DMeta) (r : DMeta) :
    (stiWithMap ns ch r).properties = r.properties := by
  simp only [stiWithMap]
  split <;> rfl

theorem stiWithMap_name (ns : NamingStrategyModel) (ch : List DMeta) (r : DMeta) :
    (stiWithMap ns ch r).name = r.name := by
  simp only [stiWithMap]
  split <;> rfl

theorem stiWithMap_discCol (ns : NamingStrategyModel) (ch : List DMeta) (r : DMeta) :
    (stiWithMap ns ch r).discriminatorColumn = r.discriminatorColumn := by
  simp only [stiWithMap]
  split <;> rfl

theorem stiWithDiscProp_name (ns : NamingStrategyModel) (r : DMeta) :
    (stiWithDiscProp ns r).name = r.name := by
  simp only [stiWithDiscProp]
  split <;> rfl

theorem stiWithDiscProp_discCol (ns : NamingStrategyModel) (r : DMeta) :
    (stiWithDiscProp ns r).discriminatorColumn = r.discriminatorColumn := by
  simp only [stiWithDiscProp]
  split <;> rfl

/-- The discriminator-property stage preserves nullable name presence. -/
theorem stiWithDiscProp_preserves (ns : NamingStrategyModel) (r : DMeta) (nm : String)
    (h : hasNullableNamed r.properties nm) :
    hasNullableNamed (stiWithDiscProp ns r).properties nm := by
  simp only [stiWithDiscProp]
  split
  next hnone =>
    apply hasNullableNamed_setDProp _ _ _ h
    right
    intro hname
    obtain ⟨q, hq, hqn, _⟩ := h
    rw [Option.isNone_iff_eq_none, ← Option.not_isSome_iff_eq_none] at hnone
    apply hnone
    rw [DMeta.findProp, List.find?_isSome]
    refine ⟨q, hq, ?_⟩
    simp only [createDiscriminatorProperty] at hname
    rw [beq_iff_eq, hqn, ← hname]
  · exact h

/-- The discriminator-property stage preserves name presence. -/
theorem stiWithDiscProp_preserves_named (ns : NamingStrategyModel) (r : DMeta)
    (nm : String) (h : hasNamed r.properties nm) :
    hasNamed (stiWithDiscProp ns r).properties nm := by
  simp only [stiWithDiscProp]
  split
  · exact hasNamed_setDProp _ _ _ h
  · exact h

/-- initSingleTableInheritance keeps the root's discriminator column. -/
theorem initSTI_discCol (ns : NamingStrategyModel) (ch : List DMeta) (r m : DMeta) :
    (initSingleTableInheritance ns ch r m).discriminatorColumn = r.discriminatorColumn := by
  simp only [initSingleTableInheritance]
  split
  · rfl
  · split
    · rw [stiWithDiscProp_discCol, stiWithMap_discCol]
    · show (stiWithDiscProp ns (stiWithMap ns ch r)).discriminatorColumn = _
      rw [stiWithDiscProp_discCol, stiWithMap_discCol]

/-- initSingleTableInheritance keeps the root's name. -/
theorem initSTI_name (ns : NamingStrategyModel) (ch : List DMeta) (r m : DMeta) :
    (initSingleTableInheritance ns ch r m).name = r.name := by
  simp only [initSingleTableInheritance]
  split
  · rfl
  · split
    · rw [stiWithDiscProp_name, stiWithMap_name]
    · show (stiWithDiscProp ns (stiWithMap ns ch r)).name = _
      rw [stiWithDiscProp_name, stiWithMap_name]

/-- initSingleTableInheritance preserves nullable name presence. -/
theorem initSTI_preserves (ns : NamingStrategyModel) (ch : List DMeta) (r m : DMeta)
    (nm : String) (h : hasNullableNamed r.properties nm) :
    hasNullableNamed (initSingleTableInheritance ns ch r m).properties nm := by
  have h1 : hasNullableNamed (stiWithDiscProp ns (stiWithMap ns ch r)).properties nm := by
    apply stiWithDiscProp_preserves
    rw [stiWithMap_props]
    exact h
  simp only [initSingleTableInheritance]
  split
  · exact h
  · split
    · exact h1
    · show hasNullableNamed
        (m.properties.foldl stiCopyStep (stiWithDiscProp ns (stiWithMap ns ch r)).properties) nm
      exact foldl_stiCopyStep_preserves m.properties _ nm h1

/-- initSingleTableInheritance preserves name presence. -/
theorem initSTI_preserves_named (ns : NamingStrategyModel) (ch : List DMeta) (r m : DMeta)
    (nm : String) (h : hasNamed r.properties nm) :
    hasNamed (initSingleTableInheritance ns ch r m).properties nm := by
  have h1 : hasNamed (stiWithDiscProp ns (stiWithMap ns ch r)).properties nm := by
    apply stiWithDiscProp_preserves_named
    rw [stiWithMap_props]
    exact h
  simp only [initSingleTableInheritance]
  split
  · exact h
  · split
    · exact h1
    · show hasNamed
        (m.properties.foldl stiCopyStep (stiWithDiscProp ns (stiWithMap ns ch r)).properties) nm
      exact foldl_stiCopyStep_preserves_named m.properties _ nm h1

/-- Processing a subclass copies each of its properties onto the root,
forced nullable. -/
theorem initSTI_establishes (ns : NamingStrategyModel) (ch : List DMeta) (r m : DMeta)
    (hdisc : r.discriminatorColumn.isSome = true) (hne : r.name ≠ m.name) :
    ∀ p ∈ m.properties,
      hasNullableNamed (initSingleTableInheritance ns ch r m).properties p.name := by
  intro p hp
  simp only [initSingleTableInheritance]
  split
  next hno =>
    rw [Option.isNone_iff_eq_none] at hno
    rw [hno] at hdisc
    cases hdisc
  · split
    next heq =>
      rw [stiWithDiscProp_name, stiWithMap_name] at heq
      exact absurd heq hne
    · show hasNullableNamed
        (m.properties.foldl stiCopyStep (stiWithDiscProp ns (stiWithMap ns ch r)).properties) p.name
      exact foldl_stiCopyStep_establishes m.properties _ p hp

/-- Folding initSingleTableInheritance keeps the root's name. -/
theorem foldlSTI_name (ns : NamingStrategyModel) (ch : List DMeta) :
    ∀ (l : List DMeta) (r : DMeta),
      (l.foldl (fun r m => initSingleTableInheritance ns ch r m) r).name = r.name := by
  intro l
  induction l with
  | nil => intro r; rfl
  | cons m rest ih =>
    intro r
    rw [List.foldl_cons, ih, initSTI_name]

/-- Folding initSingleTableInheritance keeps the discriminator column. -/
theorem foldlSTI_discCol (ns : NamingStrategyModel) (ch : List DMeta) :
    ∀ (l : List DMeta) (r : DMeta),
      (l.foldl (fun r m => initSingleTableInheritance ns ch r m) r).discriminatorColumn =
        r.discriminatorColumn := by
  intro l
  induction l with
  | nil => intro r; rfl
  | cons m rest ih =>
    intro r
    rw [List.foldl_cons, ih, initSTI_discCol]

/-- Folding initSingleTableInheritance preserves nullable name presence. -/
theorem foldlSTI_preserves (ns : NamingStrategyModel) (ch : List DMeta) :
    ∀ (l : List DMeta) (r : DMeta) (nm : String),
      hasNullableNamed r.properties nm →
      hasNullableNamed
        ((l.foldl (fun r m => initSingleTableInheritance ns ch r m) r)).properties nm := by
  intro l
  induction l with
  | nil => intro r nm h; exact h
  | cons m rest ih =>
    intro r nm h
    rw [List.foldl_cons]
    exact ih _ nm (initSTI_preserves ns ch r m nm h)

/-- Folding initSingleTableInheritance preserves name presence. -/
theorem foldlSTI_preserves_named (ns : NamingStrategyModel) (ch : List DMeta) :
    ∀ (l : List DMeta) (r : DMeta) (nm : String),
      hasNamed r.properties nm →
      hasNamed
        ((l.foldl (fun r m => initSingleTableInheritance ns ch r m) r)).properties nm := by
  intro l
  induction l with
  | nil => intro r nm h; exact h
  | cons m rest ih =>
    intro r nm h
    rw [List.foldl_cons]
    exact ih _ nm (initSTI_preserves_named ns ch r m nm h)

/-- One assignment preserves the invariant when the assigned property is
tagged only if its name is absent. -/
theorem stiInv_setDProp (root0props d : List DProp) (c : DProp)
    (hinv : stiInv root0props d)
    (hc : c.inherited = true → ¬ hasNamed d c.name) :
    stiInv root0props (setDProp d c) := by
  obtain ⟨h1, h2⟩ := hinv
  constructor
  · intro q hq hinh
    rcases mem_setDProp_cases d c q hq with h | h
    · subst h
      intro hn
      obtain ⟨p0, hp0, hp0n⟩ := hn
      exact (hc hinh) (hp0n ▸ h2 p0 hp0)
    · exact h1 q h hinh
  · intro p hp
    exact hasNamed_setDProp d c p.name (h2 p hp)

/-- The copy step preserves the invariant for untagged subclass properties. -/
theorem stiInv_stiCopyStep (root0props d : List DProp) (prop : DProp)
    (hprop : prop.inherited = false) (hinv : stiInv root0props d) :
    stiInv root0props (stiCopyStep d prop) := by
  simp only [stiCopyStep]
  split
  · apply stiInv_setDProp _ _ _ hinv
    intro hinh
    rw [show ({ prop with nullable := true } : DProp).inherited = prop.inherited from rfl,
      hprop] at hinh
    cases hinh
  next hfalse =>
    apply stiInv_setDProp _ _ _ hinv
    intro _ hn
    obtain ⟨q, hq, hqn⟩ := hn
    have hsome : (List.find? (fun q => q.name == prop.name) d).isSome = true := by
      rw [List.find?_isSome]
      exact ⟨q, hq, beq_iff_eq.mpr hqn⟩
    rw [hsome] at hfalse
    exact hfalse rfl

/-- The copy loop preserves the invariant when the subclass properties are
untagged. -/
theorem stiInv_foldCopy (root0props : List DProp) :
    ∀ (props : List DProp) (d : List DProp),
      (∀ p ∈ props, p.inherited = false) → stiInv root0props d →
      stiInv root0props (props.foldl stiCopyStep d) := by
  intro props
  induction props with
  | nil => intro d _ hinv; exact hinv
  | cons p rest ih =>
    intro d hall hinv
    rw [List.foldl_cons]
    exact ih _ (fun q hq => hall q (List.mem_cons_of_mem p hq))
      (stiInv_stiCopyStep root0props d p (hall p (List.mem_cons_self p rest)) hinv)

/-- The discriminator-property stage preserves the invariant. -/
theorem stiInv_stiWithDiscProp (root0props : List DProp) (ns : NamingStrategyModel)
    (r : DMeta) (hinv : stiInv root0props r.properties) :
    stiInv root0props (stiWithDiscProp ns r).properties := by
  simp only [stiWithDiscProp]
  split
  · apply stiInv_setDProp _ _ _ hinv
    intro hinh
    rw [show (createDiscriminatorProperty ns r).inherited = false from rfl] at hinh
    cases hinh
  · exact hinv

/-- initSingleTableInheritance preserves the invariant provided the subclass
properties are untagged (or the entity is the root itself, whose copy loop
is skipped). -/
theorem stiInv_initSTI (root0props : List DProp) (ns : NamingStrategyModel)
    (ch : List DMeta) (r m : DMeta)
    (hm : (∀ p ∈ m.properties, p.inherited = false) ∨ r.name = m.name)
    (hinv : stiInv root0props r.properties) :
    stiInv root0props (initSingleTableInheritance ns ch r m).properties := by
  have hstage : stiInv root0props (stiWithDiscProp ns (stiWithMap ns ch r)).properties := by
    apply stiInv_stiWithDiscProp
    rw [stiWithMap_props]
    exact hinv
  simp only [initSingleTableInheritance]
  split
  · exact hinv
  · split
    · exact hstage
    next hne =>
      show stiInv root0props
        (m.properties.foldl stiCopyStep (stiWithDiscProp ns (stiWithMap ns ch r)).properties)
      rcases hm with hm | hm
      · exact stiInv_foldCopy root0props m.properties _ hm hstage
      · rw [stiWithDiscProp_name, stiWithMap_name] at hne
        exact absurd hm hne

/-- The invariant is preserved by the whole resolution fold. -/
theorem stiInv_foldlSTI (root0props : List DProp) (ns : NamingStrategyModel)
    (ch : List DMeta) (rootName : String) :
    ∀ (l : List DMeta) (r : DMeta),
      r.name = rootName →
      (∀ m ∈ l, (∀ p ∈ m.properties, p.inherited = false) ∨ m.name = rootName) →
      stiInv root0props r.properties →
      stiInv root0props
        ((l.foldl (fun r m => initSingleTableInheritance ns ch r m) r)).properties := by
  intro l
  induction l with
  | nil => intro r _ _ hinv; exact hinv
  | cons m rest ih =>
    intro r hrname hall hinv
    rw [List.foldl_cons]
    refine ih _ ?_ (fun m2 hm2 => hall m2 (List.mem_cons_of_mem m hm2)) ?_
    · rw [initSTI_name, hrname]
    · apply stiInv_initSTI root0props ns ch r m ?_ hinv
      rcases hall m (List.mem_cons_self m rest) with h | h
      · exact Or.inl h
      · exact Or.inr (by rw [hrname, h])

/-- C8 (amended): after single-table-inheritance resolution the root holds a
property for every subclass property name and every one of its own names;
every property copied from a subclass is forced nullable — including when a
property of the same name was declared on the root itself — and a property
is tagged inherited only when no property of that name already existed on
the root at copy time; in particular a name declared on the original root is
never tagged inherited. -/
theorem stiUnionNullable_c8_amended :
    ∀ (ns : NamingStrategyModel) (root : DMeta) (subs : List DMeta),
      root.discriminatorColumn.isSome = true →
      (∀ sub ∈ subs, sub.name ≠ root.name) →
      (∀ sub ∈ subs, ∀ p ∈ sub.properties, p.inherited = false) →
      (∀ p ∈ root.properties, p.inherited = false) →
      (∀ sub ∈ subs, ∀ p ∈ sub.properties,
        hasNullableNamed (resolveSTI ns root (root :: subs)).properties p.name) ∧
      (∀ p ∈ root.properties,
        hasNamed (resolveSTI ns root (root :: subs)).properties p.name) ∧
      (∀ q ∈ (resolveSTI ns root (root :: subs)).properties,
        q.inherited = true → ¬ hasNamed root.properties q.name) := by
  intro ns root subs hdisc hnames huntagged hrootUntagged
  simp only [resolveSTI]
  refine ⟨?_, ?_, ?_⟩
  · intro sub hsub p hp
    obtain ⟨l1, l2, hsplit⟩ := List.append_of_mem hsub
    subst hsplit
    rw [show root :: (l1 ++ sub :: l2) = (root :: l1) ++ (sub :: l2) from rfl,
      List.foldl_append, List.foldl_cons]
    apply foldlSTI_preserves
    apply initSTI_establishes
    · rw [foldlSTI_discCol]
      exact hdisc
    · rw [foldlSTI_name]
      exact fun h => hnames sub (by simp) h.symm
    · exact hp
  · intro p hp
    apply foldlSTI_preserves_named
    exact ⟨p, hp, rfl⟩
  · have hinv := stiInv_foldlSTI root.properties ns
      (root :: (root :: subs).filter fun m => m.name != root.name) root.name
      (root :: subs) root rfl ?_ ?_
    · exact hinv.1
    · intro m hm
      rcases List.mem_cons.mp hm with h | h
      · exact Or.inr (by rw [h])
      · exact Or.inl (huntagged m h)
    · exact ⟨fun q hq hinh => absurd hinh (by rw [hrootUntagged q hq]; decide),
        fun p hp => ⟨p, hp, rfl⟩⟩

/-! ### Rename-detection lemmas (C3) -/

theorem spliceFind_sublist [DecidableEq α] (l : List α) (x : α) :
    List.Sublist (spliceFind l x) l := by
  rw [spliceFind]
  split
  · exact List.erase_sublist x l
  · exact List.dropLast_sublist l

theorem foldl_spliceFind_sublist [DecidableEq α] (entries : List β) (f : β → α) :
    ∀ l : List α, List.Sublist (entries.foldl (fun acc e => spliceFind acc (f e)) l) l := by
  induction entries with
  | nil => intro l; exact List.Sublist.refl l
  | cons e rest ih =>
    intro l
    rw [List.foldl_cons]
    exact (ih (spliceFind l (f e))).trans (spliceFind_sublist l (f e))

theorem not_mem_spliceFind_self [DecidableEq α] (l : List α) (x : α)
    (h : l.count x ≤ 1) : x ∉ spliceFind l x := by
  by_cases hx : x ∈ l
  · rw [spliceFind, if_pos hx]
    intro hmem
    have h1 : 0 < (l.erase x).count x := List.count_pos_iff.mpr hmem
    rw [List.count_erase_self] at h1
    omega
  · rw [spliceFind, if_neg hx]
    intro hmem
    exact hx ((List.dropLast_sublist l).subset hmem)

theorem not_mem_foldl_spliceFind [DecidableEq α] (f : β → α) (x : α) :
    ∀ (entries : List β) (l : List α),
      (∃ e ∈ entries, f e = x) → l.count x ≤ 1 →
      x ∉ entries.foldl (fun acc e => spliceFind acc (f e)) l := by
  intro entries
  induction entries with
  | nil =>
    intro l hex _
    rcases hex with ⟨e, he, _⟩
    cases he
  | cons e rest ih =>
    intro l hex hc
    rw [List.foldl_cons]
    by_cases hfe : f e = x
    · intro hmem
      have hsub := foldl_spliceFind_sublist rest f (spliceFind l (f e))
      have hx : x ∈ spliceFind l (f e) := hsub.subset hmem
      rw [hfe] at hx
      exact not_mem_spliceFind_self l x hc hx
    · rcases hex with ⟨e2, he2, hfe2⟩
      rcases List.mem_cons.mp he2 with h | h
      · exact absurd (h ▸ hfe2) hfe
      · exact ih (spliceFind l (f e)) ⟨e2, h, hfe2⟩
          (le_trans ((spliceFind_sublist l (f e)).count_le x) hc)

theorem count_flatMap_zero [BEq α] [LawfulBEq α] [BEq β] [LawfulBEq β]
    (piece : α → List β) (y : α) (x : β)
    (hother : ∀ q, q ≠ y → x ∉ piece q) :
    ∀ L : List α, L.count y = 0 → (L.flatMap piece).count x = 0 := by
  intro L
  induction L with
  | nil => intro _; rfl
  | cons a rest ih =>
    intro hL
    have hnot : y ∉ a :: rest := List.count_eq_zero.mp hL
    have ha : a ≠ y := fun h => hnot (h ▸ List.mem_cons_self a rest)
    have hrest : rest.count y = 0 :=
      List.count_eq_zero.mpr fun h => hnot (List.mem_cons_of_mem a h)
    rw [List.flatMap_cons, List.count_append,
      List.count_eq_zero.mpr (hother a ha), ih hrest]

theorem count_flatMap_one [BEq α] [LawfulBEq α] [BEq β] [LawfulBEq β]
    (piece : α → List β) (y : α) (x : β)
    (hself : (piece y).count x = 1)
    (hother : ∀ q, q ≠ y → x ∉ piece q) :
    ∀ L : List α, L.count y = 1 → (L.flatMap piece).count x = 1 := by
  intro L
  induction L with
  | nil => intro h; simp at h
  | cons a rest ih =>
    intro hL
    rw [List.flatMap_cons, List.count_append]
    by_cases ha : a = y
    · subst ha
      have hrest : rest.count a = 0 := by
        rw [List.count_cons_self] at hL
        omega
      rw [hself, count_flatMap_zero piece a x hother rest hrest]
    · have hrest : rest.count y = 1 := by
        rw [List.count_cons, if_neg (by simp [ha])] at hL
        omega
      rw [List.count_eq_zero.mpr (hother a ha), ih hrest]

theorem renamedPiece_snd (helper : SchemaHelperModel) (remove : List Column)
    (q : SProp) (x : Column × SProp)
    (hx : x ∈ q.fieldNames.filterMap fun fieldName =>
      (remove.find? fun column =>
        (helper.isSame q { column with name := fieldName } 0).all).map
        fun column => (column, q)) :
    x.2 = q := by
  rcases List.mem_filterMap.mp hx with ⟨fn, _, heq⟩
  rcases Option.map_eq_some'.mp heq with ⟨col, _, hcol⟩
  rw [← hcol]

/-- The first-match behavior of findRenamedColumns: when the property has a
single field name, occurs once in the create list, the find-first matching
column c occurs at most once in the remove list, then the pair (c, p) is
renamed exactly once and both are spliced out. -/
theorem findRenamedColumns_spec (helper : SchemaHelperModel)
    (create : List SProp) (remove : List Column) (p : SProp) (c : Column) (f : String)
    (hf : p.fieldNames = [f])
    (hcr : create.count p = 1)
    (hrm : remove.count c ≤ 1)
    (hfind : remove.find?
      (fun column => (helper.isSame p { column with name := f } 0).all) = some c) :
    (findRenamedColumns helper create remove).1.count (c, p) = 1 ∧
    p ∉ (findRenamedColumns helper create remove).2.1 ∧
    c ∉ (findRenamedColumns helper create remove).2.2 := by
  have hself : ((fun (prop : SProp) => prop.fieldNames.filterMap fun fieldName =>
      (remove.find? fun column =>
        (helper.isSame prop { column with name := fieldName } 0).all).map
        fun column => (column, prop)) p).count (c, p) = 1 := by
    simp only [hf, List.filterMap_cons, List.filterMap_nil, hfind]
    simp
  have hother : ∀ q, q ≠ p → (c, p) ∉ ((fun (prop : SProp) =>
      prop.fieldNames.filterMap fun fieldName =>
        (remove.find? fun column =>
          (helper.isSame prop { column with name := fieldName } 0).all).map
          fun column => (column, prop)) q) := by
    intro q hq hmem
    exact hq (renamedPiece_snd helper remove q (c, p) hmem).symm
  have hcount1 : (findRenamedColumns helper create remove).1.count (c, p) = 1 := by
    simp only [findRenamedColumns]
    exact count_flatMap_one _ p (c, p) hself hother create hcr
  have hmem1 : (c, p) ∈ (findRenamedColumns helper create remove).1 :=
    List.count_pos_iff.mp (by rw [hcount1]; exact Nat.one_pos)
  refine ⟨hcount1, ?_, ?_⟩
  · simp only [findRenamedColumns] at hmem1 ⊢
    exact not_mem_foldl_spliceFind (fun e => e.2) p _ create ⟨(c, p), hmem1, rfl⟩
      (le_of_eq hcr)
  · simp only [findRenamedColumns] at hmem1 ⊢
    exact not_mem_foldl_spliceFind (fun e => e.1) c _ remove ⟨(c, p), hmem1, rfl⟩ hrm

/-- C8: counterexample to the claimed root-declaration exception.  Property
x is declared non-nullable on the root Base and re-declared on the subclass
Sub; after resolution the root holds x as nullable (and not tagged
inherited), so a copied property is forced nullable even when it was
declared on the root. -/
theorem stiUnionNullable_c8_counterexample :
    (stiRoot.findProp "x").map (fun p => p.nullable) = some false ∧
    (stiSub.findProp "x").isSome = true ∧
    ((resolveSTI defaultNS stiRoot [stiRoot, stiSub]).findProp "x").map
      (fun p => (p.nullable, p.inherited)) = some (true, false) := by
  refine ⟨rfl, rfl, ?_⟩
  rfl

/-- Witness for the amended C8 theorem at the Base/Sub hierarchy: all four
hypotheses hold there and the three conclusions follow. -/
theorem stiUnionNullable_c8_amended_witness :
    (∀ sub ∈ [stiSub], ∀ p ∈ sub.properties,
      hasNullableNamed (resolveSTI defaultNS stiRoot (stiRoot :: [stiSub])).properties p.name) ∧
    (∀ p ∈ stiRoot.properties,
      hasNamed (resolveSTI defaultNS stiRoot (stiRoot :: [stiSub])).properties p.name) ∧
    (∀ q ∈ (resolveSTI defaultNS stiRoot (stiRoot :: [stiSub])).properties,
      q.inherited = true → ¬ hasNamed stiRoot.properties q.name) :=
  stiUnionNullable_c8_amended defaultNS stiRoot [stiSub]
    (by decide) (by decide) (by decide) (by decide)

/-- C3: counterexample.  Live columns a and b both become structurally
identical to desired property p (field name x) once renamed, yet the
computed difference pairs p only with the first matching column a: the pair
(b, p) gets no rename entry and b stays in the remove list, although only
the field name of b differs from p under the platform check. -/
theorem renameDetection_c3_counterexample :
    (structIsSame c3Prop { c3ColB with name := "x" } 0).all = true ∧
    (computeTableDifference c3Helper c3Meta c3Table false).rename.count
      (c3ColB, c3Prop) = 0 ∧
    c3ColB ∈ (computeTableDifference c3Helper c3Meta c3Table false).remove ∧
    computeTableDifference c3Helper c3Meta c3Table false =
      { create := [], update := [], remove := [c3ColB], rename := [(c3ColA, c3Prop)],
        addIndex := [], dropIndex := [] } := by
  exact ⟨by rfl, by decide, by decide, by decide⟩

/-- C3 (amended): findRenamedColumns pairs a create-listed property only
with the first removed column that becomes structurally identical under the
renamed field name; when the property has a single field name, occurs once
in the create stage, and that first matching column occurs at most once in
the remove stage, the difference holds exactly one rename entry pairing
them, the property leaves the create list and that column leaves the remove
list; any later structurally matching column stays scheduled for removal. -/
theorem renameDetection_c3_amended :
    ∀ (helper : SchemaHelperModel) (meta : SMeta) (table : DatabaseTable) (safe : Bool)
      (p : SProp) (c : Column) (f : String),
      p.fieldNames = [f] →
      (createStage helper meta table).count p = 1 →
      (removeStage helper meta table).count c ≤ 1 →
      (removeStage helper meta table).find?
        (fun col => (helper.isSame p { col with name := f } 0).all) = some c →
      (computeTableDifference helper meta table safe).rename.count (c, p) = 1 ∧
      p ∉ (computeTableDifference helper meta table safe).create ∧
      c ∉ (computeTableDifference helper meta table safe).remove := by
  intro helper meta table safe p c f hf hcr hrm hfind
  have h := findRenamedColumns_spec helper (createStage helper meta table)
    (removeStage helper meta table) p c f hf hcr hrm hfind
  simp only [createStage] at h
  cases safe
  · exact ⟨h.1, h.2.1, h.2.2⟩
  · exact ⟨h.1, h.2.1, List.not_mem_nil c⟩

/-- Witness for the amended C3 theorem at the a/b/x fixture. -/
theorem renameDetection_c3_amended_witness :
    (computeTableDifference c3Helper c3Meta c3Table false).rename.count
      (c3ColA, c3Prop) = 1 ∧
    c3Prop ∉ (computeTableDifference c3Helper c3Meta c3Table false).create ∧
    c3ColA ∉ (computeTableDifference c3Helper c3Meta c3Table false).remove :=
  renameDetection_c3_amended c3Helper c3Meta c3Table false c3Prop c3ColA "x"
    (by rfl) (by decide) (by decide) (by decide)

/-! ### Commit-order lemmas (C1) -/

theorem hasIncomingAny_iff (deps : List (String × String × Nat)) (rem : List String)
    (a : String) :
    hasIncomingAny deps rem a = true ↔ ∃ b ∈ rem, AnyEdge deps b a := by
  rw [hasIncomingAny, List.any_eq_true]
  constructor
  · rintro ⟨d, hd, hcond⟩
    rw [Bool.and_eq_true, beq_iff_eq] at hcond
    refine ⟨d.1, ?_, d.2.2, ?_⟩
    · have := hcond.2
      simpa using this
    · have : d = (d.1, d.2.1, d.2.2) := rfl
      rw [hcond.1] at this
      exact this ▸ hd
  · rintro ⟨b, hb, w, hw⟩
    refine ⟨(b, a, w), hw, ?_⟩
    simp [hb]

theorem hasIncomingReq_iff (deps : List (String × String × Nat)) (rem : List String)
    (a : String) :
    hasIncomingReq deps rem a = true ↔ ∃ b ∈ rem, ReqEdge deps b a := by
  rw [hasIncomingReq, List.any_eq_true]
  constructor
  · rintro ⟨d, hd, hcond⟩
    rw [Bool.and_eq_true, Bool.and_eq_true, beq_iff_eq] at hcond
    refine ⟨d.1, ?_, ?_⟩
    · have := hcond.1.2
      simpa using this
    · have h1 : d.2.2 = 1 := by simpa using hcond.2
      have : d = (d.1, d.2.1, d.2.2) := rfl
      rw [hcond.1.1, h1] at this
      exact this ▸ hd
  · rintro ⟨b, hb, hw⟩
    refine ⟨(b, a, 1), hw, ?_⟩
    simp [hb]

theorem chain_exists_pred (R : String → String → Prop) :
    ∀ (l : List String) (a : String), List.Chain R a l →
      ∀ z ∈ l, ∃ b ∈ a :: l, R b z := by
  intro l
  induction l with
  | nil => intro a _ z hz; cases hz
  | cons c l ih =>
    intro a hch z hz
    rw [List.chain_cons] at hch
    rcases List.mem_cons.mp hz with h | h
    · exact ⟨a, List.mem_cons_self a _, h ▸ hch.1⟩
    · rcases ih c hch.2 z h with ⟨b, hb, hR⟩
      exact ⟨b, List.mem_cons_of_mem a hb, hR⟩

theorem cycleOn_has_incoming (R : String → String → Prop) (a : String) (l : List String)
    (h : cycleOn R a l) : ∀ z ∈ a :: l, ∃ b ∈ a :: l, R b z := by
  intro z hz
  rcases List.mem_cons.mp hz with hza | hzl
  · exact ⟨(a :: l).getLast (List.cons_ne_nil a l), List.getLast_mem _, hza ▸ h.2⟩
  · exact chain_exists_pred R l a h.1 z hzl

theorem descSeq_chain (R : String → String → Prop) (y : Nat → String)
    (hy : ∀ n, R (y (n + 1)) (y n)) :
    ∀ (t m : Nat), List.Chain R (y (m + t)) (descSeq y m t) := by
  intro t
  induction t with
  | zero => intro m; exact List.Chain.nil
  | succ t ih =>
    intro m
    show List.Chain R (y (m + (t + 1))) (y (m + t) :: descSeq y m t)
    rw [List.chain_cons]
    exact ⟨by rw [show m + (t + 1) = (m + t) + 1 from rfl]; exact hy (m + t), ih m⟩

theorem descSeq_getLast (y : Nat → String) (m : Nat) :
    ∀ t : Nat, (y (m + t) :: descSeq y m t).getLast (List.cons_ne_nil _ _) = y m := by
  intro t
  induction t with
  | zero => rfl
  | succ t ih =>
    show (y (m + (t + 1)) :: y (m + t) :: descSeq y m t).getLast (List.cons_ne_nil _ _) = y m
    rw [List.getLast_cons (List.cons_ne_nil _ _)]
    exact ih

theorem cycle_from_repeat (R : String → String → Prop) (y : Nat → String)
    (hyR : ∀ n, R (y (n + 1)) (y n)) (i j : Nat) (hij : i < j) (heq : y i = y j) :
    ∃ a l, cycleOn R a l := by
  refine ⟨y ((i + 1) + (j - i - 1)), descSeq y (i + 1) (j - i - 1), ?_, ?_⟩
  · exact descSeq_chain R y hyR (j - i - 1) (i + 1)
  · rw [descSeq_getLast y (i + 1) (j - i - 1)]
    have hj : (i + 1) + (j - i - 1) = j := by omega
    rw [hj, ← heq]
    exact hyR i

theorem exists_cycle_of_all_incoming (R : String → String → Prop) (S : List String)
    (hne : S ≠ []) (h : ∀ a ∈ S, ∃ b ∈ S, R b a) :
    ∃ a l, cycleOn R a l := by
  classical
  have hhead : S.head hne ∈ S := List.head_mem hne
  let g : String → String := fun a => if ha : a ∈ S then (h a ha).choose else S.head hne
  have hg : ∀ a ∈ S, g a ∈ S ∧ R (g a) a := by
    intro a ha
    show (if ha2 : a ∈ S then (h a ha2).choose else S.head hne) ∈ S ∧
      R (if ha2 : a ∈ S then (h a ha2).choose else S.head hne) a
    rw [dif_pos ha]
    exact ⟨(h a ha).choose_spec.1, (h a ha).choose_spec.2⟩
  let y : Nat → String := fun n => g^[n] (S.head hne)
  have hyS : ∀ n, y n ∈ S := by
    intro n
    induction n with
    | zero => exact hhead
    | succ n ih =>
      show g^[n + 1] (S.head hne) ∈ S
      rw [Function.iterate_succ_apply']
      exact (hg _ ih).1
  have hyR : ∀ n, R (y (n + 1)) (y n) := by
    intro n
    show R (g^[n + 1] (S.head hne)) (y n)
    rw [Function.iterate_succ_apply']
    exact (hg _ (hyS n)).2
  have hcard : Fintype.card {x // x ∈ S.toFinset} < Fintype.card (Fin (S.length + 1)) := by
    rw [Fintype.card_coe, Fintype.card_fin]
    exact Nat.lt_succ_of_le (List.toFinset_card_le S)
  obtain ⟨i, j, hij, hfij⟩ := Fintype.exists_ne_map_eq_of_card_lt
    (fun i : Fin (S.length + 1) => (⟨y i, List.mem_toFinset.mpr (hyS i)⟩ : {x // x ∈ S.toFinset}))
    hcard
  have hyij : y i = y j := congrArg Subtype.val hfij
  rcases Nat.lt_or_ge (i : Nat) (j : Nat) with hlt | hge
  · exact cycle_from_repeat R y hyR i j hlt hyij
  · have hlt2 : (j : Nat) < (i : Nat) := by
      rcases Nat.lt_or_ge (j : Nat) (i : Nat) with h2 | h2
      · exact h2
      · exact absurd (Fin.ext (Nat.le_antisymm h2 hge)) hij
    exact cycle_from_repeat R y hyR j i hlt2 hyij.symm

theorem pickNode_acyclic (deps : List (String × String × Nat)) (rem : List String)
    (hne : rem ≠ []) (hacy : ¬ ∃ a l, cycleOn (AnyEdge deps) a l) :
    ∃ x, pickNode deps rem = some x ∧ x ∈ rem ∧
      hasIncomingAny deps rem x = false := by
  cases hf : rem.find? (fun a => !hasIncomingAny deps rem a) with
  | some x =>
    refine ⟨x, ?_, List.mem_of_find?_eq_some hf, ?_⟩
    · rw [pickNode, hf]
    · have := List.find?_some hf
      simpa using this
  | none =>
    exfalso
    apply hacy
    apply exists_cycle_of_all_incoming (AnyEdge deps) rem hne
    intro a ha
    have := List.find?_eq_none.mp hf a ha
    simp only [Bool.not_eq_true', Bool.not_eq_false] at this
    exact (hasIncomingAny_iff deps rem a).mp this

theorem pickNode_some_cases (deps : List (String × String × Nat)) (rem : List String)
    (x : String) (h : pickNode deps rem = some x) :
    x ∈ rem ∧ (hasIncomingAny deps rem x = false ∨ hasIncomingReq deps rem x = false) := by
  rw [pickNode] at h
  cases hf : rem.find? (fun a => !hasIncomingAny deps rem a) with
  | some a =>
    rw [hf] at h
    cases h
    refine ⟨List.mem_of_find?_eq_some hf, Or.inl ?_⟩
    have := List.find?_some hf
    simpa using this
  | none =>
    rw [hf] at h
    refine ⟨List.mem_of_find?_eq_some h, Or.inr ?_⟩
    have := List.find?_some h
    simpa using this

theorem precedes_cons (x : String) (l : List String) (b a : String)
    (h : precedes l b a) : precedes (x :: l) b a := by
  rcases h with ⟨i, j, hij, hb, ha⟩
  exact ⟨i + 1, j + 1, Nat.succ_lt_succ hij,
    by rw [List.getElem?_cons_succ]; exact hb,
    by rw [List.getElem?_cons_succ]; exact ha⟩

theorem precedes_head (b : String) (l : List String) (a : String) (ha : a ∈ l) :
    precedes (b :: l) b a := by
  rcases List.mem_iff_getElem?.mp ha with ⟨j, hj⟩
  exact ⟨0, j + 1, Nat.succ_pos j,
    by rw [List.getElem?_cons_zero],
    by rw [List.getElem?_cons_succ]; exact hj⟩

/-- Acyclicity of the dependency graph makes the topological sort succeed
with a permutation of the remaining nodes in which every registered
dependency is respected. -/
theorem sortAux_acyclic (deps : List (String × String × Nat))
    (hacy : ¬ ∃ a l, cycleOn (AnyEdge deps) a l) :
    ∀ (fuel : Nat) (rem : List String), rem.length ≤ fuel →
      ∃ order, sortAux deps fuel rem = .ok order ∧ order.Perm rem ∧
        ∀ b a w, (b, a, w) ∈ deps → b ∈ rem → a ∈ rem → b ≠ a →
          precedes order b a := by
  intro fuel
  induction fuel with
  | zero =>
    intro rem hlen
    have : rem = [] := List.eq_nil_of_length_eq_zero (Nat.le_zero.mp hlen)
    subst this
    exact ⟨[], rfl, List.Perm.refl [], fun b a w _ hb _ _ => absurd hb (List.not_mem_nil b)⟩
  | succ fuel ih =>
    intro rem hlen
    cases rem with
    | nil =>
      exact ⟨[], rfl, List.Perm.refl [], fun b a w _ hb _ _ => absurd hb (List.not_mem_nil b)⟩
    | cons a rest =>
      obtain ⟨x, hpick, hxmem, hxany⟩ :=
        pickNode_acyclic deps (a :: rest) (List.cons_ne_nil a rest) hacy
      have hlen2 : ((a :: rest).erase x).length ≤ fuel := by
        rw [List.length_erase_of_mem hxmem]
        simp only [List.length_cons] at hlen ⊢
        omega
      obtain ⟨order, hso, hperm, hord⟩ := ih ((a :: rest).erase x) hlen2
      refine ⟨x :: order, ?_, ?_, ?_⟩
      · simp only [sortAux, hpick, hso, Except.map]
      · exact (hperm.cons x).trans (List.perm_cons_erase hxmem).symm
      · intro b a2 w hdep hb ha2 hba
        have ha2x : a2 ≠ x := by
          intro hax
          subst hax
          rw [(hasIncomingAny_iff deps (a :: rest) a2).mpr ⟨b, hb, w, hdep⟩] at hxany
          cases hxany
        have ha2e : a2 ∈ (a :: rest).erase x := (List.mem_erase_of_ne ha2x).mpr ha2
        by_cases hbx : b = x
        · subst hbx
          exact precedes_head b order a2 (hperm.mem_iff.mpr ha2e)
        · exact precedes_cons x order b a2
            (hord b a2 w hdep ((List.mem_erase_of_ne hbx).mpr hb) ha2e hba)

/-- A required-edge cycle inside the remaining set drives the sort into the
SchemaDependencyError outcome. -/
theorem sortAux_reqCycle (deps : List (String × String × Nat)) (a0 : String)
    (l0 : List String) (hcyc : cycleOn (ReqEdge deps) a0 l0) :
    ∀ (fuel : Nat) (rem : List String), rem.length ≤ fuel →
      (∀ z ∈ a0 :: l0, z ∈ rem) →
      sortAux deps fuel rem = .error .requiredCycle := by
  intro fuel
  induction fuel with
  | zero =>
    intro rem hlen hsub
    have : rem = [] := List.eq_nil_of_length_eq_zero (Nat.le_zero.mp hlen)
    subst this
    exact absurd (hsub a0 (List.mem_cons_self a0 l0)) (List.not_mem_nil a0)
  | succ fuel ih =>
    intro rem hlen hsub
    cases rem with
    | nil => exact absurd (hsub a0 (List.mem_cons_self a0 l0)) (List.not_mem_nil a0)
    | cons a rest =>
      cases hpick : pickNode deps (a :: rest) with
      | none => simp only [sortAux, hpick]
      | some x =>
        obtain ⟨hxmem, hxor⟩ := pickNode_some_cases deps (a :: rest) x hpick
        have hxnc : x ∉ a0 :: l0 := by
          intro hxc
          obtain ⟨b, hbc, hbR⟩ := cycleOn_has_incoming (ReqEdge deps) a0 l0 hcyc x hxc
          have hbrem : b ∈ a :: rest := hsub b hbc
          rcases hxor with hfa | hfr
          · rw [(hasIncomingAny_iff deps (a :: rest) x).mpr ⟨b, hbrem, 1, hbR⟩] at hfa
            cases hfa
          · rw [(hasIncomingReq_iff deps (a :: rest) x).mpr ⟨b, hbrem, hbR⟩] at hfr
            cases hfr
        have hlen2 : ((a :: rest).erase x).length ≤ fuel := by
          rw [List.length_erase_of_mem hxmem]
          simp only [List.length_cons] at hlen ⊢
          omega
        have hsub2 : ∀ z ∈ a0 :: l0, z ∈ (a :: rest).erase x := by
          intro z hz
          have hzx : z ≠ x := fun h => hxnc (by rw [← h]; exact hz)
          exact (List.mem_erase_of_ne hzx).mpr (hsub z hz)
        simp only [sortAux, hpick, ih ((a :: rest).erase x) hlen2 hsub2, Except.map]

theorem addCommitDependency_nodes (c : CommitOrderCalculator) (prop : SProp)
    (n : String) : (addCommitDependency c prop n).nodes = c.nodes := by
  rw [addCommitDependency]
  split
  · rfl
  · rfl

theorem addCommitDependency_deps_mono (c : CommitOrderCalculator) (prop : SProp)
    (n : String) (d : String × String × Nat) (hd : d ∈ c.deps) :
    d ∈ (addCommitDependency c prop n).deps := by
  rw [addCommitDependency]
  split
  · exact hd
  · exact List.mem_append_left _ hd

/-- addCommitDependency registers exactly one edge from the property type to
the owning entity, weighted 0 for a nullable and 1 for a required foreign
key, and only for ManyToOne or owning OneToOne properties. -/
theorem addCommitDependency_deps_eq (c : CommitOrderCalculator) (prop : SProp)
    (n : String) :
    (addCommitDependency c prop n).deps =
      if ((prop.reference == ReferenceType.oneToOne && prop.owner) ||
          prop.reference == ReferenceType.manyToOne) = true then
        c.deps ++ [(prop.type, n, if prop.nullable then 0 else 1)]
      else c.deps := by
  cases hA : (prop.reference == ReferenceType.oneToOne && prop.owner) <;>
    cases hB : (prop.reference == ReferenceType.manyToOne) <;>
      simp [addCommitDependency, CommitOrderCalculator.addDependency, hA, hB, bne]

theorem commitDepProp_nodes (n : String) (c : CommitOrderCalculator) (prop : SProp) :
    (commitDepProp n c prop).nodes = c.nodes := by
  rw [commitDepProp]
  split
  · exact addCommitDependency_nodes c prop n
  · rfl

theorem commitDepProp_hasNode (n : String) (c : CommitOrderCalculator) (prop : SProp)
    (s : String) : (commitDepProp n c prop).hasNode s = c.hasNode s := by
  rw [CommitOrderCalculator.hasNode, CommitOrderCalculator.hasNode, commitDepProp_nodes]

theorem commitDepProp_deps_mono (n : String) (c : CommitOrderCalculator) (prop : SProp)
    (d : String × String × Nat) (hd : d ∈ c.deps) : d ∈ (commitDepProp n c prop).deps := by
  rw [commitDepProp]
  split
  · exact addCommitDependency_deps_mono c prop n d hd
  · exact hd

theorem foldl_commitDepProp_nodes (n : String) (ps : List SProp) :
    ∀ c : CommitOrderCalculator, (ps.foldl (commitDepProp n) c).nodes = c.nodes := by
  induction ps with
  | nil => intro c; rfl
  | cons p ps ih => intro c; rw [List.foldl_cons, ih, commitDepProp_nodes]

theorem foldl_commitDepProp_deps_mono (n : String) (ps : List SProp) :
    ∀ (c : CommitOrderCalculator) (d : String × String × Nat), d ∈ c.deps →
      d ∈ (ps.foldl (commitDepProp n) c).deps := by
  induction ps with
  | nil => intro c d hd; exact hd
  | cons p ps ih =>
    intro c d hd
    rw [List.foldl_cons]
    exact ih _ d (commitDepProp_deps_mono n c p d hd)

theorem commitDepMeta_nodes (c : CommitOrderCalculator) (m : SMeta) :
    (commitDepMeta c m).nodes = c.nodes := by
  rw [commitDepMeta, foldl_commitDepProp_nodes]

theorem commitDepMeta_hasNode (c : CommitOrderCalculator) (m : SMeta) (s : String) :
    (commitDepMeta c m).hasNode s = c.hasNode s := by
  rw [CommitOrderCalculator.hasNode, CommitOrderCalculator.hasNode, commitDepMeta_nodes]

theorem commitDepMeta_deps_mono (c : CommitOrderCalculator) (m : SMeta)
    (d : String × String × Nat) (hd : d ∈ c.deps) : d ∈ (commitDepMeta c m).deps := by
  rw [commitDepMeta]
  exact foldl_commitDepProp_deps_mono m.name m.props c d hd

theorem foldl_commitDepMeta_nodes (ms : List SMeta) :
    ∀ c : CommitOrderCalculator, (ms.foldl commitDepMeta c).nodes = c.nodes := by
  induction ms with
  | nil => intro c; rfl
  | cons m ms ih => intro c; rw [List.foldl_cons, ih, commitDepMeta_nodes]

theorem foldl_commitDepMeta_deps_mono (ms : List SMeta) :
    ∀ (c : CommitOrderCalculator) (d : String × String × Nat), d ∈ c.deps →
      d ∈ (ms.foldl commitDepMeta c).deps := by
  induction ms with
  | nil => intro c d hd; exact hd
  | cons m ms ih =>
    intro c d hd
    rw [List.foldl_cons]
    exact ih _ d (commitDepMeta_deps_mono c m d hd)

theorem commitDepMeta_establishes (c : CommitOrderCalculator) (m : SMeta) (prop : SProp)
    (hp : prop ∈ m.props)
    (hguard : ((prop.reference == ReferenceType.oneToOne && prop.owner) ||
      prop.reference == ReferenceType.manyToOne) = true)
    (hnode : c.hasNode prop.type = true) :
    (prop.type, m.name, if prop.nullable then 0 else 1) ∈ (commitDepMeta c m).deps := by
  rw [commitDepMeta]
  have key : ∀ (ps : List SProp) (c : CommitOrderCalculator), prop ∈ ps →
      c.hasNode prop.type = true →
      (prop.type, m.name, if prop.nullable then 0 else 1) ∈
        (ps.foldl (commitDepProp m.name) c).deps := by
    intro ps
    induction ps with
    | nil => intro c h; cases h
    | cons p ps ih =>
      intro c hmem hnode2
      rw [List.foldl_cons]
      rcases List.mem_cons.mp hmem with h | h
      · subst h
        apply foldl_commitDepProp_deps_mono
        rw [commitDepProp, if_pos hnode2, addCommitDependency_deps_eq, if_pos hguard]
        exact List.mem_append_right _ (List.mem_cons_self _ _)
      · apply ih (commitDepProp m.name c p) h
        rw [commitDepProp_hasNode]
        exact hnode2
  exact key m.props c hp hnode

theorem foldl_commitDepMeta_establishes (ms : List SMeta) :
    ∀ (c : CommitOrderCalculator) (m : SMeta) (prop : SProp), m ∈ ms → prop ∈ m.props →
      ((prop.reference == ReferenceType.oneToOne && prop.owner) ||
        prop.reference == ReferenceType.manyToOne) = true →
      c.hasNode prop.type = true →
      (prop.type, m.name, if prop.nullable then 0 else 1) ∈
        (ms.foldl commitDepMeta c).deps := by
  induction ms with
  | nil => intro c m prop hm; cases hm
  | cons m0 ms ih =>
    intro c m prop hm hp hguard hnode
    rw [List.foldl_cons]
    rcases List.mem_cons.mp hm with h | h
    · subst h
      exact foldl_commitDepMeta_deps_mono ms _ _
        (commitDepMeta_establishes c m prop hp hguard hnode)
    · apply ih (commitDepMeta c m0) m prop h hp hguard
      rw [commitDepMeta_hasNode]
      exact hnode

theorem buildCommitCalc_nodes (metas : List SMeta) :
    (buildCommitCalc metas).nodes = (commitNodesCalc metas).nodes := by
  rw [buildCommitCalc, foldl_commitDepMeta_nodes]

theorem buildCommitCalc_edge (metas : List SMeta) (m : SMeta) (prop : SProp)
    (hm : m ∈ metas.filter isRootNonEmbeddable) (hp : prop ∈ m.props)
    (hguard : ((prop.reference == ReferenceType.oneToOne && prop.owner) ||
      prop.reference == ReferenceType.manyToOne) = true)
    (hnode : prop.type ∈ (buildCommitCalc metas).nodes) :
    (prop.type, m.name, if prop.nullable then 0 else 1) ∈
      (buildCommitCalc metas).deps := by
  rw [buildCommitCalc]
  apply foldl_commitDepMeta_establishes _ _ m prop (List.mem_reverse.mpr hm) hp hguard
  rw [buildCommitCalc_nodes] at hnode
  rw [CommitOrderCalculator.hasNode]
  simpa using hnode

theorem no_cycle_single_edge (b a : String) (w : Nat) (hba : b ≠ a) :
    ¬ ∃ x l, cycleOn (AnyEdge [(b, a, w)]) x l := by
  rintro ⟨x, l, hch, hlast⟩
  have hedge : ∀ u v, AnyEdge [(b, a, w)] u v → u = b ∧ v = a := by
    rintro u v ⟨w2, hw⟩
    have h := List.mem_singleton.mp hw
    cases h
    exact ⟨rfl, rfl⟩
  cases l with
  | nil =>
    have hx1 : x = b := (hedge _ _ hlast).1
    have hx2 : x = a := (hedge _ _ hlast).2
    exact hba (hx1 ▸ hx2)
  | cons c l2 =>
    rw [List.chain_cons] at hch
    have h1 := hedge _ _ hch.1
    cases l2 with
    | nil =>
      have h2c : c = b := (hedge _ _ hlast).1
      exact hba (h2c ▸ h1.2)
    | cons c2 l3 =>
      have h2c : c = b := (hedge _ _ (List.chain_cons.mp hch.2).1).1
      exact hba (h2c ▸ h1.2)

/-- C1: addCommitDependency registers an edge from the property type to the
owning entity exactly for ManyToOne and owning OneToOne properties, with
weight 0 when the foreign key is nullable and 1 when required; every such
property of a root entity whose type is a node contributes that edge to the
built graph; when the dependency graph is acyclic the sort succeeds with a
permutation of the nodes in which the dependency target B precedes the
owner A for every registered edge, and getOrderedMetadata maps that order
back to metadata; and a cycle made entirely of required (weight-1) edges
makes getOrderedMetadata raise SchemaDependencyError. -/
theorem commitOrder_c1 (metas : List SMeta) :
    (∀ (c : CommitOrderCalculator) (prop : SProp) (n : String),
      (addCommitDependency c prop n).deps =
        if ((prop.reference == ReferenceType.oneToOne && prop.owner) ||
            prop.reference == ReferenceType.manyToOne) = true then
          c.deps ++ [(prop.type, n, if prop.nullable then 0 else 1)]
        else c.deps) ∧
    (∀ m ∈ metas.filter isRootNonEmbeddable, ∀ prop ∈ m.props,
      ((prop.reference == ReferenceType.oneToOne && prop.owner) ||
        prop.reference == ReferenceType.manyToOne) = true →
      prop.type ∈ (buildCommitCalc metas).nodes →
      (prop.type, m.name, if prop.nullable then 0 else 1) ∈
        (buildCommitCalc metas).deps) ∧
    (¬ (∃ a l, cycleOn (AnyEdge (buildCommitCalc metas).deps) a l) →
      ∃ order, (buildCommitCalc metas).sort = .ok order ∧
        order.Perm (buildCommitCalc metas).nodes ∧
        getOrderedMetadata metas = .ok (order.filterMap fun n =>
          metas.find? fun m2 => m2.name == n) ∧
        ∀ b a w, (b, a, w) ∈ (buildCommitCalc metas).deps →
          b ∈ (buildCommitCalc metas).nodes → a ∈ (buildCommitCalc metas).nodes →
          b ≠ a → precedes order b a) ∧
    (∀ a l, a ∈ (buildCommitCalc metas).nodes →
      (∀ z ∈ l, z ∈ (buildCommitCalc metas).nodes) →
      cycleOn (ReqEdge (buildCommitCalc metas).deps) a l →
      getOrderedMetadata metas = .error .requiredCycle) := by
  refine ⟨addCommitDependency_deps_eq, ?_, ?_, ?_⟩
  · intro m hm prop hp hguard hnode
    exact buildCommitCalc_edge metas m prop hm hp hguard hnode
  · intro hacy
    obtain ⟨order, hso, hperm, hord⟩ := sortAux_acyclic (buildCommitCalc metas).deps hacy
      (buildCommitCalc metas).nodes.length (buildCommitCalc metas).nodes (Nat.le_refl _)
    refine ⟨order, ?_, hperm, ?_, hord⟩
    · rw [CommitOrderCalculator.sort]
      exact hso
    · rw [getOrderedMetadata, CommitOrderCalculator.sort, hso]
      rfl
  · intro a l ha hl hcyc
    have hsub : ∀ z ∈ a :: l, z ∈ (buildCommitCalc metas).nodes := by
      intro z hz
      rcases List.mem_cons.mp hz with h | h
      · exact h ▸ ha
      · exact hl z h
    have hs := sortAux_reqCycle (buildCommitCalc metas).deps a l hcyc
      (buildCommitCalc metas).nodes.length (buildCommitCalc metas).nodes
      (Nat.le_refl _) hsub
    rw [getOrderedMetadata, CommitOrderCalculator.sort, hs]
    rfl

/-- Witness for C1 at a Book-with-required-author-foreign-key, Author pair:
the graph has the single required edge Author before Book, is acyclic, and
the sort succeeds respecting it. -/
theorem commitOrder_c1_witness :
    ∃ order, (buildCommitCalc c1Metas).sort = .ok order ∧
      order.Perm (buildCommitCalc c1Metas).nodes ∧
      getOrderedMetadata c1Metas = .ok (order.filterMap fun n =>
        c1Metas.find? fun m2 => m2.name == n) ∧
      ∀ b a w, (b, a, w) ∈ (buildCommitCalc c1Metas).deps →
        b ∈ (buildCommitCalc c1Metas).nodes → a ∈ (buildCommitCalc c1Metas).nodes →
        b ≠ a → precedes order b a :=
  (commitOrder_c1 c1Metas).2.2.1 (by
    have hdeps : (buildCommitCalc c1Metas).deps = [("Author", "Book", 1)] := by rfl
    rw [hdeps]
    exact no_cycle_single_edge "Author" "Book" 1 (by decide))

end MikroOrm
